import Mathlib

/-!
Verification of the schema-driven binary view system of `structurae`
(`src/lib/object-view.js`).

The development is a shallow embedding of the JavaScript source:

* a byte buffer (`ArrayBuffer` + `DataView` window) is a `List Nat` of
  bytes, mutation is explicit state passing;
* the one-time schema resolution pass (`ObjectView.initialize`,
  `ObjectView.getLength`) is embedded over raw schemas whose field
  descriptors carry the same mutable slots (`start`, `length`, rewritten
  `type` tags, `ctor`) as the source, so that partial mutation on a
  mid-loop failure is observable;
* the access paths (`get`, `set`/`setValue`, `setObject`, `setArray`,
  `setTypedArray`, `setString`, `setStringArray`, `getObject`/`toObject`,
  `from`) are embedded over resolved schemas.

The files `string-view.js`, `string-array-view.js`, `array-view.js` and
`typed-array-view.js` are required by `object-view.js` but are not part of
the sources provided; the handful of facts `object-view.js` needs from
them (`StringView.fromString`, `StringView#toString`, the `getLength`
statics of the mixin classes) are modelled from the spec and marked as
such in their doc comments.

IEEE-754 `float32`/`float64` fields are recognised by the resolution
layer (they are ordinary tokens of `fieldSizes` there), but the
value-level access layer covers the integer, bigint, string and composite
kinds only: floating point semantics is outside this integer embedding.
-/

set_option maxRecDepth 16384

namespace Structurae

/-- A byte buffer: the contents of an `ArrayBuffer`, one `Nat < 256` per
byte.  Views do not own buffers; every operation below threads the buffer
explicitly, which models the shared mutable `ArrayBuffer` of the source. -/
abbrev Buffer := List Nat

/-- Write the byte list `bs` into `b` starting at position `pos`
(`Uint8Array.prototype.set` / the store half of the `DataView` setters).
All uses in this development are in bounds (`pos + bs.length ≤ b.length`);
out of bounds the JS accessors would raise a `RangeError`. -/
def writeBytes (b : Buffer) (pos : Nat) (bs : List Nat) : Buffer :=
  b.take pos ++ bs ++ b.drop (pos + bs.length)

/-- Read `k` bytes of `b` starting at `pos` (the load half of the
`DataView` getters / a `Uint8Array` window). -/
def readBytes (b : Buffer) (pos k : Nat) : List Nat :=
  (b.drop pos).take k

/-- Two buffers agree on the window `[pos, pos + k)`. -/
def agreeOn (b b' : Buffer) (pos k : Nat) : Prop :=
  ∀ j, j < k → b[pos + j]? = b'[pos + j]?

/-! ## Numeric leaf codecs

`ObjectView` extends `DataView`; its scalar fields go through the
`DataView` getters and setters (`getUint16`, `setInt32`, `getBigInt64`,
…).  Those store fixed-width two's complement integers with a
per-call endianness flag (big-endian when the flag is absent or false).
The embedding covers the eight integer kinds; `float32`/`float64` are
excluded (IEEE-754).
-/
/-- The integer `DataView` kinds used by scalar and typed-array fields. -/
inductive PrimKind where
  | i8 | u8 | i16 | u16 | i32 | u32 | i64 | u64
  deriving DecidableEq, Repr

/-- Byte width of a kind (the source's `fieldSizes` /
`BYTES_PER_ELEMENT`). -/
def kindWidth : PrimKind → Nat
  | .i8 => 1 | .u8 => 1 | .i16 => 2 | .u16 => 2
  | .i32 => 4 | .u32 => 4 | .i64 => 8 | .u64 => 8

/-- Signed kinds read back through two's complement interpretation. -/
def kindSigned : PrimKind → Bool
  | .i8 => true | .u8 => false | .i16 => true | .u16 => false
  | .i32 => true | .u32 => false | .i64 => true | .u64 => false

/-- The 64-bit kinds take JS `BigInt` values; the others take `Number`s.
`DataView.setBigInt64` throws a `TypeError` when handed a `Number` and
vice versa, which the access layer reproduces. -/
def kindBig : PrimKind → Bool
  | .i64 => true | .u64 => true | _ => false

/-- Little-endian byte list (LSB first) of `n`, `w` bytes wide. -/
def toBytesLE : Nat → Nat → List Nat
  | 0, _ => []
  | w + 1, n => n % 256 :: toBytesLE w (n / 256)

/-- Value of a little-endian byte list. -/
def fromBytesLE : List Nat → Nat
  | [] => 0
  | byte :: rest => byte + 256 * fromBytesLE rest

/-- The byte serialisation of the `DataView` store of the integer `v` at
kind `k`: the value is reduced mod `2^bits` (the JS `ToInteger`‑then-wrap
conversion) and laid out per the endianness flag. -/
def intToBytes (k : PrimKind) (littleEndian : Bool) (v : Int) : List Nat :=
  let u := (v % (256 ^ kindWidth k : Nat)).toNat
  if littleEndian then toBytesLE (kindWidth k) u
  else (toBytesLE (kindWidth k) u).reverse

/-- The `DataView` load of kind `k` from a byte list: assemble the
unsigned value per endianness, then two's complement re-interpret for the
signed kinds. -/
def bytesToInt (k : PrimKind) (littleEndian : Bool) (bs : List Nat) : Int :=
  let u := if littleEndian then fromBytesLE bs else fromBytesLE bs.reverse
  if kindSigned k then
    if u < 256 ^ kindWidth k / 2 then (u : Int)
    else (u : Int) - (256 ^ kindWidth k : Nat)
  else (u : Int)

/-- The range of values a scalar of kind `k` stores and loads exactly
(the claims' «within declared field bounds»). -/
def inRange (k : PrimKind) (v : Int) : Bool :=
  if kindSigned k then
    decide (-((256 ^ kindWidth k / 2 : Nat) : Int) ≤ v
      ∧ v < ((256 ^ kindWidth k / 2 : Nat) : Int))
  else decide (0 ≤ v ∧ v < ((256 ^ kindWidth k : Nat) : Int))

/-! ## UTF-8 strings

`string-view.js` is required by `object-view.js` but is not among the
provided sources, so the pieces `object-view.js` uses are modelled from
the spec: the String View is a «fixed-capacity byte window interpreted as
UTF-8 text; truncates/pads to a declared byte length on write, decodes on
read» (§2), and writes «truncate at a code-point boundary, never splitting
a multi-byte code point» (§4.3).  A JS string is modelled as its list of
Unicode scalar values (code points; lone surrogates, which `TextEncoder`
replaces, are excluded by `validScalar`). -/
/-- A Unicode scalar value: what `TextEncoder` encodes losslessly. -/
def validScalar (cp : Nat) : Bool :=
  decide (cp < 0x110000) && !(decide (0xD800 ≤ cp) && decide (cp ≤ 0xDFFF))

/-- Standard UTF-8 encoding of one scalar value. -/
def encChar (cp : Nat) : List Nat :=
  if cp < 0x80 then [cp]
  else if cp < 0x800 then [0xC0 + cp / 64, 0x80 + cp % 64]
  else if cp < 0x10000 then
    [0xE0 + cp / 4096, 0x80 + cp / 64 % 64, 0x80 + cp % 64]
  else
    [0xF0 + cp / 262144, 0x80 + cp / 4096 % 64, 0x80 + cp / 64 % 64,
      0x80 + cp % 64]

/-- UTF-8 encoding of a string (`TextEncoder.encode`). -/
def utf8Encode : List Nat → List Nat
  | [] => []
  | cp :: rest => encChar cp ++ utf8Encode rest

/-- Byte length of the UTF-8 encoding. -/
def utf8Len (cps : List Nat) : Nat := (utf8Encode cps).length

/-- One-byte-at-a-time UTF-8 decoding automaton: `need` pending
continuation bytes, `acc` the partial scalar value. -/
def utf8DecAux (need acc : Nat) : List Nat → List Nat
  | [] => []
  | byte :: rest =>
    if need = 0 then
      if byte < 0x80 then byte :: utf8DecAux 0 0 rest
      else if byte < 0xC0 then 0xFFFD :: utf8DecAux 0 0 rest
      else if byte < 0xE0 then utf8DecAux 1 (byte - 0xC0) rest
      else if byte < 0xF0 then utf8DecAux 2 (byte - 0xE0) rest
      else utf8DecAux 3 (byte - 0xF0) rest
    else
      if need = 1 then (acc * 64 + (byte - 0x80)) :: utf8DecAux 0 0 rest
      else utf8DecAux (need - 1) (acc * 64 + (byte - 0x80)) rest

/-- UTF-8 decoding (`TextDecoder.decode`): exact inverse of `utf8Encode`
on valid encodings; a best-effort behaviour elsewhere, which no theorem
below relies on. -/
def utf8Decode (bs : List Nat) : List Nat := utf8DecAux 0 0 bs

/-- `StringView#toString`.  Modelled from the spec: the String View is a
C-like, zero-padded UTF-8 byte region that «decodes on read»; the content
is the bytes up to the terminating zero padding. -/
def svToString (bs : List Nat) : List Nat :=
  utf8Decode (bs.takeWhile (fun byte => byte != 0))

/-- `StringView.fromString(value)` — no size argument.  Modelled from the
spec/README: the full UTF-8 encoding of the string, in a view of exactly
the encoding's length (the README shows `fromString('abc😀a')` producing
all 8 encoded bytes). -/
def svFromString (cps : List Nat) : List Nat := utf8Encode cps

/-- The longest prefix of the string whose UTF-8 encoding fits in `limit`
bytes — truncation «at a code-point boundary» (spec §4.3). -/
def utf8TruncEnc (limit : Nat) : List Nat → List Nat
  | [] => []
  | cp :: rest =>
    let e := encChar cp
    if e.length ≤ limit then e ++ utf8TruncEnc (limit - e.length) rest
    else []

/-- `StringView.fromString(value, size)` — with a size argument, as used
by `setStringArray`.  Modelled from the spec (§4.3): «a fixed-length,
zero-padded UTF-8 encoding», truncated at a code-point boundary. -/
def svFromStringSized (size : Nat) (cps : List Nat) : List Nat :=
  let t := utf8TruncEnc size cps
  t ++ List.replicate (size - t.length) 0

/-! ## JavaScript values

The value trees `ObjectView.from` consumes and `toObject` produces. -/
/-- A JavaScript value: `undefined`, a `Number` (restricted to integers —
see the module comment on floats), a `BigInt`, a string (as its scalar
values), an array, or a plain object (ordered own properties). -/
inductive Value where
  | undef
  | num (n : Int)
  | big (n : Int)
  | str (cps : List Nat)
  | arr (vs : List Value)
  | obj (fields : List (String × Value))

/-- Property lookup on a plain object (`value[name]`, with `Reflect.has`
corresponding to `isSome`). -/
def lookupVal : List (String × Value) → String → Option Value
  | [], _ => none
  | (key, v) :: rest, name => if key = name then some v else lookupVal rest name

/-- `value` in an array position: JS iterates `0 ≤ i < value.length`; a
non-array has `undefined` length, so no element is copied — as if empty. -/
def asArr : Value → List Value
  | .arr vs => vs
  | _ => []

/-- `value` in a nested-object position: fields of a non-object source are
absent, so it behaves as an empty object. -/
def asObj : Value → List (String × Value)
  | .obj fields => fields
  | _ => []

/-- `value` in a string position.  Non-string sources would be
`String()`-coerced by the encoder; the claims only exercise strings, and a
non-string is modelled as the empty string. -/
def asStr : Value → List Nat
  | .str cps => cps
  | _ => []

/-- The argument conversion of the `DataView` numeric setters.  For the
`Number` kinds: a number is used as is (`ToInteger` then wrap is applied
inside `intToBytes`), `undefined` coerces to `0` (`ToInteger(NaN) = 0`),
a `BigInt` argument throws a `TypeError`; strings/arrays/objects coerce
through `ToNumber` — modelled as `0`, the claims never exercise them.
For the `BigInt` kinds only a `BigInt` is accepted; anything else throws
(`ToBigInt(undefined)` and numbers throw a `TypeError`). -/
def coerceNum (k : PrimKind) : Value → Except String Int :=
  fun v =>
    if kindBig k then
      match v with
      | .big n => .ok n
      | _ => .error "TypeError"
    else
      match v with
      | .num n => .ok n
      | .undef => .ok 0
      | .big _ => .error "TypeError"
      | _ => .ok 0

/-- A loaded scalar as a JS value: `Number` or `BigInt` per kind. -/
def primValue (k : PrimKind) (n : Int) : Value :=
  if kindBig k then .big n else .num n

/-- `DataView` numeric store at an absolute buffer position. -/
def setPrimAt (k : PrimKind) (le : Bool) (b : Buffer) (pos : Nat)
    (v : Int) : Buffer :=
  writeBytes b pos (intToBytes k le v)

/-- `DataView` numeric load at an absolute buffer position. -/
def getPrimAt (k : PrimKind) (le : Bool) (b : Buffer) (pos : Nat) : Int :=
  bytesToInt k le (readBytes b pos (kindWidth k))

/-- The loop of `ObjectView#setTypedArray`: write consecutive scalars at
stride `kindWidth k` (the source's `position + (i << offset)`). -/
def writePrims (k : PrimKind) (le : Bool) :
    Buffer → Nat → List Value → Except String Buffer
  | b, _, [] => .ok b
  | b, p, v :: rest =>
    match coerceNum k v with
    | .error e => .error e
    | .ok n => writePrims k le (setPrimAt k le b p n) (p + kindWidth k) rest

/-- The loop of `ObjectView#getTypedArray`: read `count` scalars. -/
def readPrims (k : PrimKind) (le : Bool) (b : Buffer) :
    Nat → Nat → List Value
  | _, 0 => []
  | p, count + 1 =>
    primValue k (getPrimAt k le b p) :: readPrims k le b (p + kindWidth k) count

/-- `ObjectView#setString`: the source runs
`new Uint8Array(buffer, byteOffset + position, length).fill(0)
  .set(StringView.fromString(value))`.
`fromString` is called *without* a size, so it yields the full encoding
(`svFromString`); `TypedArray#set` then throws a `RangeError` whenever the
source is longer than the `length`-byte target.  The error value drops the
(already zero-filled) buffer, which no claim observes. -/
def setStringAt (b : Buffer) (pos len : Nat) (cps : List Nat) :
    Except String Buffer :=
  let b1 := writeBytes b pos (List.replicate len 0)
  let src := svFromString cps
  if len < src.length then .error "RangeError"
  else .ok (writeBytes b1 pos src)

/-- The slot loop of `ObjectView#setStringArray`: each slot receives the
fixed-length `StringView.fromString(value[i], stringLength)`. -/
def writeStrSlots (sl : Nat) : Buffer → Nat → List Value → Buffer
  | b, _, [] => b
  | b, p, v :: rest =>
    writeStrSlots sl (writeBytes b p (svFromStringSized sl (asStr v))) (p + sl)
      rest

/-- `ObjectView#setStringArray`: zero-fill the whole `len`-byte field,
then write min(`size`, source length) fixed-length slots. -/
def setStringArrayAt (b : Buffer) (pos len sl size : Nat)
    (vs : List Value) : Buffer :=
  writeStrSlots sl (writeBytes b pos (List.replicate len 0)) pos (vs.take size)

/-- The loop of `ObjectView#getStringArray`: decode `count` slots of `sl`
bytes each. -/
def readStrSlots (sl : Nat) (b : Buffer) : Nat → Nat → List Value
  | _, 0 => []
  | p, count + 1 =>
    .str (svToString (readBytes b p sl)) :: readStrSlots sl b (p + sl) count

/-! ## Resolved schemas

What `ObjectView.initialize` produces: every field has its byte `start`,
byte `length` and a concrete dispatch target (`type` tag plus `ctor`). -/
mutual
/-- A resolved field descriptor — the dispatch targets of
`setValue`/`getObject`:  a scalar, a typed array (`ctor` kind/endianness
and declared `size`), a string of declared byte length, a string array
(`size` slots of `stringLength` bytes), a nested struct (`ctor` with its
resolved schema and `objectLength`), or an array of nested structs. -/
inductive RDesc where
  | prim (k : PrimKind) (littleEndian : Bool)
  | tarr (k : PrimKind) (littleEndian : Bool) (size : Nat)
  | strD (length : Nat)
  | sarr (size stringLength : Nat)
  | objD (sub : RFields) (objectLength : Nat)
  | arrD (sub : RFields) (objectLength : Nat) (size : Nat)

/-- A resolved schema: field name, byte `start`, byte `length` and
descriptor, in declaration order. -/
inductive RFields where
  | nil
  | cons (name : String) (start len : Nat) (d : RDesc) (rest : RFields)
end

/-- Byte length a descriptor occupies (the `field.length` the resolution
pass computes). -/
def descLen : RDesc → Nat
  | .prim k _ => kindWidth k
  | .tarr k _ size => size * kindWidth k
  | .strD len => len
  | .sarr size sl => size * sl
  | .objD _ olen => olen
  | .arrD _ olen size => size * olen

/-- Total byte length of a field list (`objectLength` of a struct). -/
def sumLen : RFields → Nat
  | .nil => 0
  | .cons _ _ len _ rest => len + sumLen rest

def namesList : RFields → List String
  | .nil => []
  | .cons name _ _ _ rest => name :: namesList rest

mutual
/-- The invariant `initialize` establishes on a field: the recorded
`length` matches the descriptor, nested schemas are themselves resolved. -/
def descOk : RDesc → Nat → Bool
  | .prim k _, len => len == kindWidth k
  | .tarr k _ size, len => len == size * kindWidth k
  | .strD sL, len => len == sL
  | .sarr size sl, len => len == size * sl
  | .objD sub olen, len =>
    len == olen && olen == sumLen sub && fieldsOkFrom sub 0
  | .arrD sub olen size, len =>
    len == size * olen && olen == sumLen sub && fieldsOkFrom sub 0

/-- The packed layout invariant: starting at offset `o`, each field starts
where the previous one ended (`start[i] = start[i-1] + length[i-1]`),
names are unique (schemas are JS objects), descriptors are resolved. -/
def fieldsOkFrom : RFields → Nat → Bool
  | .nil, _ => true
  | .cons name start len d rest, o =>
    start == o && descOk d len && !((namesList rest).contains name)
      && fieldsOkFrom rest (o + len)
end

/-- A fully resolved struct schema (fields packed from offset 0). -/
def fieldsOk (fs : RFields) : Bool := fieldsOkFrom fs 0

/-! ## The write path (`set` / `setValue` / `from`) -/
/-- The slot loop of `ObjectView#setArray`: write consecutive elements at
stride `olen` with the given per-element writer (the source's
`position + (i * ctor.objectLength)`). -/
def writeSlots (writeOne : Buffer → Nat → Value → Except String Buffer)
    (olen : Nat) : Buffer → Nat → List Value → Except String Buffer
  | b, _, [] => .ok b
  | b, p, v :: rest =>
    match writeOne b p v with
    | .error e => .error e
    | .ok b1 => writeSlots writeOne olen b1 (p + olen) rest

/-- The slot loop of `ObjectView#getArray`: read `count` nested objects at
stride `olen`. -/
def readSlots (readOne : Buffer → Nat → Value) (olen : Nat) (b : Buffer) :
    Nat → Nat → List Value
  | _, 0 => []
  | p, count + 1 => readOne b p :: readSlots readOne olen b (p + olen) count

mutual
/-- `ObjectView#setValue`, dispatched on the resolved descriptor; `pos` is
the source's `offset + field.start` already combined. -/
def setVal : RDesc → Buffer → Nat → Value → Except String Buffer
  | .prim k le, b, pos, v =>
    match coerceNum k v with
    | .error e => .error e
    | .ok n => .ok (setPrimAt k le b pos n)
  | .tarr k le size, b, pos, v => writePrims k le b pos ((asArr v).take size)
  | .strD len, b, pos, v => setStringAt b pos len (asStr v)
  | .sarr size sl, b, pos, v =>
    .ok (setStringArrayAt b pos (size * sl) sl size (asArr v))
  | .objD sub _, b, pos, v => setFields sub b pos (asObj v)
  | .arrD sub olen size, b, pos, v =>
    writeSlots (fun bb p el => setFieldsU sub bb p (asObj el)) olen b pos
      ((asArr v).take size)

/-- `ObjectView#setObject`: for each schema field, write `value[name]`
only when `Reflect.has(value, name)` — absent fields are skipped. -/
def setFields :
    RFields → Buffer → Nat → List (String × Value) → Except String Buffer
  | .nil, b, _, _ => .ok b
  | .cons name start _ d rest, b, pos, pairs =>
    match (match lookupVal pairs name with
           | some v => setVal d b (pos + start) v
           | none => .ok b) with
    | .error e => .error e
    | .ok b1 => setFields rest b1 pos pairs

/-- The inner loop of `ObjectView#setArray`: every element-schema field is
written, `value[i][name]` being `undefined` when absent — no presence
check, unlike `setObject`. -/
def setFieldsU :
    RFields → Buffer → Nat → List (String × Value) → Except String Buffer
  | .nil, b, _, _ => .ok b
  | .cons name start _ d rest, b, pos, pairs =>
    match setVal d b (pos + start) ((lookupVal pairs name).getD .undef) with
    | .error e => .error e
    | .ok b1 => setFieldsU rest b1 pos pairs
end

/-! ## The read path (`get` / `getObject` / `toObject`) -/
mutual
/-- The per-field reads of `ObjectView#getObject` (also the recursion of
`getArray`): decode the field at absolute position `pos`. -/
def getVal : RDesc → Buffer → Nat → Value
  | .prim k le, b, pos => primValue k (getPrimAt k le b pos)
  | .tarr k le size, b, pos => .arr (readPrims k le b pos size)
  | .strD len, b, pos => .str (svToString (readBytes b pos len))
  | .sarr size sl, b, pos => .arr (readStrSlots sl b pos size)
  | .objD sub _, b, pos => .obj (getFields sub b pos)
  | .arrD sub olen size, b, pos =>
    .arr (readSlots (fun bb p => .obj (getFields sub bb p)) olen b pos size)

/-- `ObjectView#getObject`: decode every schema field, in declaration
order. -/
def getFields : RFields → Buffer → Nat → List (String × Value)
  | .nil, _, _ => []
  | .cons name start _ d rest, b, pos =>
    (name, getVal d b (pos + start)) :: getFields rest b pos
end

/-- `ObjectView.from(object)` without a view argument: a fresh zero-filled
buffer of `getLength()` bytes, then `setObject(0, object, ctor)`. -/
def fromValue (fs : RFields) (pairs : List (String × Value)) :
    Except String Buffer :=
  setFields fs (List.replicate (sumLen fs) 0) 0 pairs

/-- `ObjectView.from(object, view)` with a caller-supplied view: no
zero-fill, just `setObject(0, object, ctor)` over the existing bytes. -/
def fromValueInto (fs : RFields) (b : Buffer)
    (pairs : List (String × Value)) : Except String Buffer :=
  setFields fs b 0 pairs

/-- `ObjectView#toObject` = `getObject(schema, 0)`. -/
def toObjectValue (fs : RFields) (b : Buffer) : List (String × Value) :=
  getFields fs b 0

/-! ## `ObjectView#get` -/
/-- What `get(field)` returns: a decoded scalar for the numeric kinds, or
a live view — a window `(byteOffset, byteLength)` into the *same* buffer —
for every composite kind. -/
inductive GetResult where
  | val (v : Value)
  | view (off len : Nat)

/-- `ObjectView#get` on a view whose window starts at `selfOff`: numeric
kinds load through `DataView`; `string`/`stringarray`/`typedarray`/
`array`/`object` fields construct a view anchored at
`this.byteOffset + start` over the same buffer (`getView` and the
`stringarray` case of the source). -/
def getField (fs : RFields) (b : Buffer) (selfOff : Nat) (name : String) :
    Option GetResult :=
  match fs with
  | .nil => none
  | .cons fname start len d rest =>
    if fname = name then
      some (match d with
        | .prim k le => .val (primValue k (getPrimAt k le b (selfOff + start)))
        | _ => .view (selfOff + start) len)
    else getField rest b selfOff name

/-! ## The value-tree shape `matches` a resolved schema

The «value tree matching its schema, within declared bounds/lengths» of
the round-trip claim: every field present with exactly the schema's keys
in declaration order, scalars in range, arrays of exactly the declared
size, strings of valid nonzero scalars whose encoding fits the declared
byte length. -/
/-- A scalar value of kind `k` within its declared bit width. -/
def numOk (k : PrimKind) (v : Value) : Bool :=
  match v with
  | .num n => !kindBig k && inRange k n
  | .big n => kindBig k && inRange k n
  | _ => false

/-- A string of valid, nonzero scalar values whose UTF-8 encoding fits in
`len` bytes. -/
def strOk (len : Nat) (v : Value) : Bool :=
  match v with
  | .str cps =>
    cps.all (fun cp => validScalar cp && cp != 0) && decide (utf8Len cps ≤ len)
  | _ => false

mutual
def matchesV : RDesc → Value → Bool
  | .prim k _, v => numOk k v
  | .tarr k _ size, v =>
    match v with
    | .arr vs => decide (vs.length = size) && vs.all (numOk k)
    | _ => false
  | .strD len, v => strOk len v
  | .sarr size sl, v =>
    match v with
    | .arr vs => decide (vs.length = size) && vs.all (strOk sl)
    | _ => false
  | .objD sub _, v =>
    match v with
    | .obj pairs => matchesPairs sub pairs
    | _ => false
  | .arrD sub _ size, v =>
    match v with
    | .arr vs =>
      decide (vs.length = size)
        && vs.all (fun el =>
            match el with
            | .obj pairs => matchesPairs sub pairs
            | _ => false)
    | _ => false

def matchesPairs : RFields → List (String × Value) → Bool
  | .nil, pairs => pairs.isEmpty
  | .cons name _ _ d rest, pairs =>
    match pairs with
    | [] => false
    | (pname, pv) :: prest =>
      pname == name && matchesV d pv && matchesPairs rest prest
end

/-! ## Schema resolution (`ObjectView.initialize` / `ObjectView.getLength`)

The resolution pass is embedded over *raw* schemas, carrying exactly the
mutable descriptor slots the source mutates in place (`start`, `length`,
the rewritten `type` tag, `stringLength`, `ctor`), so that partial
mutation on a mid-loop `TypeError` is an observable part of the result. -/
/-- The source's `fieldSizes` table: byte width of each recognised numeric
type token (here the resolution layer does cover `float32`/`float64`). -/
def fieldSizes : String → Option Nat
  | "int8" => some 1
  | "uint8" => some 1
  | "int16" => some 2
  | "uint16" => some 2
  | "int32" => some 4
  | "uint32" => some 4
  | "float32" => some 4
  | "float64" => some 8
  | "bigint64" => some 8
  | "biguint64" => some 8
  | _ => none

mutual
/-- A declared field `type`: a string token or a reference to a nested
view class (identified with its schema). -/
inductive RawType where
  | token (t : String)
  | view (schema : RawFields)

/-- The `ctor` slot assigned during resolution:
`TypedArrayViewMixin(type, littleEndian)`, `ArrayViewMixin(type)` or the
nested class itself. -/
inductive CtorRef where
  | tarrCtor (t : String) (littleEndian : Bool)
  | arrCtor (schema : RawFields)
  | objCtor (schema : RawFields)

/-- A field list as declared, plus the slots `initialize` mutates:
`start`, (re-)assigned `length`, possibly rewritten `type`,
`stringLength`, `ctor` — `none`/unchanged until assigned. -/
inductive RawFields where
  | nil
  | cons (name : String) (type : RawType) (size : Option Nat)
      (length : Option Nat) (littleEndian : Bool)
      (start : Option Nat) (stringLength : Option Nat)
      (ctor : Option CtorRef) (rest : RawFields)
end

mutual
/-- The `switch` body of one `initialize` iteration, after `field.start`
has been assigned.  Returns `(type', length', stringLength', ctor',
byte length)` — the slots as mutated — or the thrown `TypeError` message.
JS truthiness: a declared `size` of `0` (or an absent one) takes the
no-`size` branch, mirroring `if (size)`.  The mixin `getLength` statics
are modelled from the spec (§4.4: `getLength(size)` returns
`size · stride`); a plain string field with no declared `length` would
make JS compute `NaN` offsets — modelled as length 0, and excluded by
`stringLengthsDeclared` wherever a theorem needs the layout. -/
def stepField (type : RawType) (size : Option Nat) (length : Option Nat)
    (littleEndian : Bool) :
    Except String
      (RawType × Option Nat × Option Nat × Option CtorRef × Nat) :=
  match type with
  | .token t =>
    match fieldSizes t with
    | some width =>
      if size.getD 0 = 0 then .ok (.token t, some width, none, none, width)
      else
        .ok (.token "typedarray", some (size.getD 0 * width), none,
          some (.tarrCtor t littleEndian), size.getD 0 * width)
    | none =>
      if t = "string" then
        if size.getD 0 = 0 then
          .ok (.token "string", length, none, none, length.getD 0)
        else
          .ok (.token "stringarray", some (size.getD 0 * length.getD 0),
            some (length.getD 0), none, size.getD 0 * length.getD 0)
      else .error ("Type \"" ++ t ++ "\" is not a valid type.")
  | .view nested =>
    match initFields nested 0 with
    | .error (_, msg) => .error msg
    | .ok (nested', olen) =>
      if size.getD 0 = 0 then
        .ok (.token "object", some olen, none, some (.objCtor nested'), olen)
      else
        .ok (.token "array", some (size.getD 0 * olen), none,
          some (.arrCtor nested'), size.getD 0 * olen)

/-- The `initialize` loop from `lastOffset = off`: assign `field.start`,
dispatch the `switch`, accumulate `lastOffset`.  On an error, the
returned schema holds the mutations already applied: the processed prefix
is fully mutated and the failing field has its `start` assigned. -/
def initFields :
    RawFields → Nat → Except (RawFields × String) (RawFields × Nat)
  | .nil, off => .ok (.nil, off)
  | .cons name type size length le _start sl0 ctor0 rest, off =>
    match stepField type size length le with
    | .error msg =>
      .error (.cons name type size length le (some off) sl0 ctor0 rest, msg)
    | .ok (type', length', sl', ctor', fieldLen) =>
      match initFields rest (off + fieldLen) with
      | .error (rest', msg) =>
        .error
          (.cons name type' size length' le (some off) sl' ctor' rest', msg)
      | .ok (rest', total) =>
        .ok (.cons name type' size length' le (some off) sl' ctor' rest',
          total)
end

/-- The static state of a struct type: its (possibly mutated) schema and
the `objectLength` / `fields` / `isInitialized` statics (`isInit` here). -/
structure StructType where
  schema : RawFields
  objectLength : Nat
  fields : Option (List String)
  isInit : Bool

/-- A freshly declared struct type: schema attached, statics at their
declared defaults (`objectLength = 0`, `fields`/flag unset). -/
def mkStruct (schema : RawFields) : StructType := ⟨schema, 0, none, false⟩

def namesRaw : RawFields → List String
  | .nil => []
  | .cons name _ _ _ _ _ _ _ rest => name :: namesRaw rest

/-- `ObjectView.getLength`: `if (!this.isInitialized) this.initialize();
return this.objectLength;` — resolution happens on first use and is
guarded by the flag afterwards. -/
def getLengthS (S : StructType) : StructType × Except String Nat :=
  if S.isInit then (S, .ok S.objectLength)
  else
    match initFields S.schema 0 with
    | .error (sch', msg) => ({ S with schema := sch' }, .error msg)
    | .ok (sch', len) => (⟨sch', len, some (namesRaw sch'), true⟩, .ok len)

/-- The packed-layout invariant on a mutated schema: from offset `o`,
every field has `start = o_i` and an assigned `length`, with
`o_{i+1} = o_i + length_i`. -/
def packedFrom : RawFields → Nat → Bool
  | .nil, _ => true
  | .cons _ _ _ length _ start _ _ rest, o =>
    start == some o
      && match length with
         | some l => packedFrom rest (o + l)
         | none => false

/-- Sum of the assigned field lengths of a mutated schema. -/
def sumLenRaw : RawFields → Nat
  | .nil => 0
  | .cons _ _ _ length _ _ _ _ rest => length.getD 0 + sumLenRaw rest

/-- Every string field of the schema (recursively) declares a `length` —
the data-model's well-formedness for strings (§3); without it JS computes
`NaN` offsets rather than erroring. -/
def stringLengthsDeclared : RawFields → Bool
  | .nil => true
  | .cons _ type _ length _ _ _ _ rest =>
    (match type with
     | .token t => if t = "string" then length.isSome else true
     | .view nested => stringLengthsDeclared nested)
      && stringLengthsDeclared rest

/-- A recognised `type` token: a `fieldSizes` numeric token or
`"string"`. -/
def validToken (t : String) : Bool := (fieldSizes t).isSome || t == "string"

mutual
/-- The declared type is (or transitively contains) an unrecognised
token. -/
def hasInvalidR : RawType → Bool
  | .token t => !validToken t
  | .view nested => hasInvalidF nested

def hasInvalidF : RawFields → Bool
  | .nil => false
  | .cons _ type _ _ _ _ _ _ rest => hasInvalidR type || hasInvalidF rest
end

/-- Whether first-use resolution of a fresh struct type fails. -/
def resolveFails (sch : RawFields) : Bool :=
  match (getLengthS (mkStruct sch)).2 with
  | .error _ => true
  | .ok _ => false

/-- The `start` slot of the first field. -/
def headStart : RawFields → Option Nat
  | .nil => none
  | .cons _ _ _ _ _ start _ _ _ => start

def isErr {ε α : Type} : Except ε α → Bool
  | .error _ => true
  | .ok _ => false

def exSchemaC2 : RawFields :=
  .cons "id" (.token "uint32") none none false none none none
    (.cons "name" (.token "string") none (some 10) false none none none .nil)

def exStructC2 : StructType :=
  ⟨.cons "id" (.token "uint32") none (some 4) false (some 0) none none
      (.cons "name" (.token "string") none (some 10) false (some 4) none
        none .nil),
    14, some ["id", "name"], true⟩

def badSchemaC4 : RawFields :=
  .cons "a" (.token "uint8") none none false none none none
    (.cons "b" (.token "bogus") none none false none none none .nil)

/-! ## Looking up a schema's fields on a source object -/
/-- The values a source object supplies for every schema field, paired in
declaration order: `some rhs` iff every field name is present and its
value matches the field's descriptor.  `rhs` is then exactly what
`getObject` returns after `setObject` writes `pairs`. -/
def lookupAll : RFields → List (String × Value) →
    Option (List (String × Value))
  | .nil, _ => some []
  | .cons name _ _ d rest, pairs =>
    match lookupVal pairs name with
    | none => none
    | some v =>
      if matchesV d v then
        match lookupAll rest pairs with
        | none => none
        | some tailp => some ((name, v) :: tailp)
      else none

/-! ## Individual fields of a schema -/
/-- Field `name` occurs in the schema at byte start `s` with byte length
`l` and descriptor `d`, and no earlier field shadows the name. -/
inductive FieldAt : RFields → String → Nat → Nat → RDesc → Prop where
  | head (name : String) (s l : Nat) (d : RDesc) (rest : RFields) :
      FieldAt (.cons name s l d rest) name s l d
  | tail (name' : String) (s' l' : Nat) (d' : RDesc) {rest : RFields}
      {name : String} {s l : Nat} {d : RDesc}
      (h : FieldAt rest name s l d) (hne : name ≠ name') :
      FieldAt (.cons name' s' l' d' rest) name s l d

def c1Child : RFields := .cons "n" 0 1 (.prim .i8 false) .nil

def c1Kid : RFields := .cons "m" 0 1 (.prim .u8 false) .nil

def exSchemaC1 : RFields :=
  .cons "id" 0 2 (.prim .u16 true)
    (.cons "name" 2 4 (.strD 4)
      (.cons "tags" 6 2 (.tarr .u8 false 2)
        (.cons "child" 8 1 (.objD c1Child 1)
          (.cons "kids" 9 2 (.arrD c1Kid 1 2)
            (.cons "labels" 11 4 (.sarr 2 2)
              (.cons "big" 15 8 (.prim .i64 false) .nil))))))

def exPairsC1 : List (String × Value) :=
  [("id", .num 513), ("name", .str [104, 1119]),
    ("tags", .arr [.num 7, .num 255]),
    ("child", .obj [("n", .num (-5))]),
    ("kids", .arr [.obj [("m", .num 1)], .obj [("m", .num 2)]]),
    ("labels", .arr [.str [97], .str [98, 99]]),
    ("big", .big (-123456789))]

def c6Sub : RFields := .cons "n" 0 1 (.prim .u8 false) .nil

def c6Fields : RFields := .cons "c" 0 1 (.objD c6Sub 1) .nil

def c7Sub : RFields :=
  .cons "a" 0 1 (.prim .u8 false) (.cons "b" 1 1 (.prim .u8 false) .nil)

def c9Sub : RFields :=
  .cons "a" 0 1 (.prim .u8 false) (.cons "g" 1 1 (.prim .u8 false) .nil)

def c10Fields : RFields :=
  .cons "a" 0 1 (.prim .u8 false) (.cons "c" 1 1 (.prim .u8 false) .nil)

def c8Sub : RFields := .cons "m" 0 1 (.prim .u8 false) .nil

theorem writeBytes_length {b : Buffer} {pos : Nat} {bs : List Nat}
    (h : pos + bs.length ≤ b.length) :
    (writeBytes b pos bs).length = b.length := by
  simp only [writeBytes, List.length_append, List.length_take, List.length_drop]
  omega

theorem readBytes_length {b : Buffer} {pos k : Nat}
    (h : pos + k ≤ b.length) : (readBytes b pos k).length = k := by
  simp only [readBytes, List.length_take, List.length_drop]
  omega

theorem getElem?_writeBytes_lt {b : Buffer} {pos : Nat} {bs : List Nat}
    (hb : pos + bs.length ≤ b.length) {j : Nat} (h : j < pos) :
    (writeBytes b pos bs)[j]? = b[j]? := by
  unfold writeBytes
  rw [List.append_assoc, List.getElem?_append, List.length_take]
  have h1 : j < pos ⊓ b.length := by omega
  rw [if_pos h1, List.getElem?_take, if_pos h]

theorem getElem?_writeBytes_ge {b : Buffer} {pos : Nat} {bs : List Nat}
    (hb : pos + bs.length ≤ b.length) {j : Nat} (h : pos + bs.length ≤ j) :
    (writeBytes b pos bs)[j]? = b[j]? := by
  unfold writeBytes
  rw [List.append_assoc, List.getElem?_append, List.length_take]
  have h1 : ¬ j < pos ⊓ b.length := by omega
  rw [if_neg h1, List.getElem?_append, if_neg (by omega), List.getElem?_drop]
  congr 1
  omega

theorem getElem?_writeBytes_window {b : Buffer} {pos : Nat} {bs : List Nat}
    (hb : pos + bs.length ≤ b.length) {j : Nat}
    (h1 : pos ≤ j) (h2 : j < pos + bs.length) :
    (writeBytes b pos bs)[j]? = bs[j - pos]? := by
  unfold writeBytes
  rw [List.append_assoc, List.getElem?_append, List.length_take]
  have hx : ¬ j < pos ⊓ b.length := by omega
  rw [if_neg hx, List.getElem?_append, if_pos (by omega)]
  congr 1
  omega

theorem agreeOn_refl (b : Buffer) (pos k : Nat) : agreeOn b b pos k :=
  fun _ _ => rfl

theorem agreeOn_trans {b b' b'' : Buffer} {pos k : Nat}
    (h1 : agreeOn b b' pos k) (h2 : agreeOn b' b'' pos k) :
    agreeOn b b'' pos k :=
  fun j hj => (h1 j hj).trans (h2 j hj)

theorem agreeOn_symm {b b' : Buffer} {pos k : Nat}
    (h : agreeOn b b' pos k) : agreeOn b' b pos k :=
  fun j hj => (h j hj).symm

/-- Shrink an agreement window to a sub-window. -/
theorem agreeOn_mono {b b' : Buffer} {pos k pos' k' : Nat}
    (h : agreeOn b b' pos k) (h1 : pos ≤ pos') (h2 : pos' + k' ≤ pos + k) :
    agreeOn b b' pos' k' := by
  intro j hj
  have hx := h (pos' - pos + j) (by omega)
  have e : pos + (pos' - pos + j) = pos' + j := by omega
  rwa [e] at hx

theorem readBytes_eq_of_agreeOn {b b' : Buffer} {pos k : Nat}
    (h : agreeOn b b' pos k) :
    readBytes b pos k = readBytes b' pos k := by
  apply List.ext_getElem?
  intro j
  simp only [readBytes, List.getElem?_take, List.getElem?_drop]
  by_cases hj : j < k
  · rw [if_pos hj, if_pos hj]
    exact h j hj
  · rw [if_neg hj, if_neg hj]

/-- Writing inside `[pos, pos + bs.length)` leaves every window outside
that range untouched. -/
theorem agreeOn_writeBytes_outside {b : Buffer} {pos : Nat} {bs : List Nat}
    (hb : pos + bs.length ≤ b.length) {p k : Nat}
    (h : p + k ≤ pos ∨ pos + bs.length ≤ p) :
    agreeOn (writeBytes b pos bs) b p k := by
  intro j hj
  rcases h with h | h
  · exact getElem?_writeBytes_lt hb (by omega)
  · exact getElem?_writeBytes_ge hb (by omega)

theorem readBytes_writeBytes_self {b : Buffer} {pos : Nat} {bs : List Nat}
    (hb : pos + bs.length ≤ b.length) :
    readBytes (writeBytes b pos bs) pos bs.length = bs := by
  apply List.ext_getElem?
  intro j
  simp only [readBytes, List.getElem?_take, List.getElem?_drop]
  by_cases hj : j < bs.length
  · rw [if_pos hj, getElem?_writeBytes_window hb (by omega) (by omega)]
    congr 1
    omega
  · rw [if_neg hj, List.getElem?_eq_none (by omega)]

theorem readBytes_replicate (n pos k : Nat) (h : pos + k ≤ n) :
    readBytes (List.replicate n (0 : Nat)) pos k = List.replicate k 0 := by
  simp only [readBytes, List.drop_replicate, List.take_replicate]
  congr 1
  omega

theorem toBytesLE_length (w n : Nat) : (toBytesLE w n).length = w := by
  induction w generalizing n with
  | zero => rfl
  | succ w ih => simp [toBytesLE, ih]

theorem fromBytesLE_toBytesLE (w n : Nat) (h : n < 256 ^ w) :
    fromBytesLE (toBytesLE w n) = n := by
  induction w generalizing n with
  | zero =>
    simp only [toBytesLE, fromBytesLE]
    omega
  | succ w ih =>
    simp only [toBytesLE, fromBytesLE]
    rw [ih (n / 256) (by
      have : 256 ^ (w + 1) = 256 ^ w * 256 := by ring
      omega)]
    omega

theorem intToBytes_length (k : PrimKind) (le : Bool) (v : Int) :
    (intToBytes k le v).length = kindWidth k := by
  unfold intToBytes
  cases le <;> simp [toBytesLE_length]

theorem bytesToInt_intToBytes (k : PrimKind) (le : Bool) {v : Int}
    (h : inRange k v = true) :
    bytesToInt k le (intToBytes k le v) = v := by
  have hw : 0 < kindWidth k := by cases k <;> simp [kindWidth]
  have hpow : 0 < (256 ^ kindWidth k : Nat) := Nat.pos_pow_of_pos _ (by omega)
  have hhalf : (256 ^ kindWidth k / 2) * 2 = 256 ^ kindWidth k := by
    apply Nat.div_mul_cancel
    have h2 : 256 ^ kindWidth k = 256 ^ (kindWidth k - 1) * 256 := by
      conv_lhs => rw [show kindWidth k = (kindWidth k - 1) + 1 by omega]
      ring
    omega
  set N : Nat := 256 ^ kindWidth k with hN
  have hhalfZ : ((N / 2 : Nat) : Int) * 2 = (N : Int) := by exact_mod_cast hhalf
  have hmn : (0 : Int) ≤ v % (N : Int) := Int.emod_nonneg v (by exact_mod_cast hpow.ne')
  have hml : v % (N : Int) < (N : Int) := Int.emod_lt_of_pos v (by exact_mod_cast hpow)
  set u : Nat := (v % ((N : Nat) : Int)).toNat with hu
  have hulen : u < N := by omega
  have hround : bytesToInt k le (intToBytes k le v) =
      (if kindSigned k then (if u < N / 2 then (u : Int) else (u : Int) - N)
       else (u : Int)) := by
    unfold bytesToInt intToBytes
    cases le <;>
      simp [List.reverse_reverse, fromBytesLE_toBytesLE _ _ hulen, ← hN, ← hu]
  rw [hround]
  unfold inRange at h
  cases hsk : kindSigned k <;> rw [hsk] at h <;>
    simp only [Bool.false_eq_true, if_true, if_false, decide_eq_true_eq] at h ⊢
  · -- unsigned kind: the stored payload is `v` itself
    rw [← hN] at h
    have hv : v % (N : Int) = v := Int.emod_eq_of_lt h.1 h.2
    omega
  · -- signed kind: two's complement re-interpretation
    rw [← hN] at h
    rcases h with ⟨h1, h2⟩
    by_cases h0 : 0 ≤ v
    · have hv : v % (N : Int) = v := Int.emod_eq_of_lt h0 (by omega)
      rw [if_pos (by omega)]
      omega
    · have e1 : (v + N) % (N : Int) = v % N := by
        have hx := @Int.add_mul_emod_self_left v (N : Int) 1
        simp only [mul_one] at hx
        exact hx
      have e2 : (v + N) % (N : Int) = v + N :=
        Int.emod_eq_of_lt (by omega) (by omega)
      rw [if_neg (by omega)]
      omega

theorem utf8Decode_b1 (b0 : Nat) (h : b0 < 0x80) (rest : List Nat) :
    utf8Decode (b0 :: rest) = b0 :: utf8Decode rest := by
  unfold utf8Decode
  rw [utf8DecAux, if_pos rfl, if_pos h]

theorem utf8Decode_b2 (b0 : Nat) (h1 : 0xC0 ≤ b0) (h2 : b0 < 0xE0)
    (b1 : Nat) (rest : List Nat) :
    utf8Decode (b0 :: b1 :: rest)
      = ((b0 - 0xC0) * 64 + (b1 - 0x80)) :: utf8Decode rest := by
  unfold utf8Decode
  rw [utf8DecAux, if_pos rfl, if_neg (by omega), if_neg (by omega),
    if_pos h2, utf8DecAux, if_neg (by omega), if_pos rfl]

theorem utf8Decode_b3 (b0 : Nat) (h1 : 0xE0 ≤ b0) (h2 : b0 < 0xF0)
    (b1 b2 : Nat) (rest : List Nat) :
    utf8Decode (b0 :: b1 :: b2 :: rest)
      = (((b0 - 0xE0) * 64 + (b1 - 0x80)) * 64 + (b2 - 0x80))
          :: utf8Decode rest := by
  unfold utf8Decode
  rw [utf8DecAux, if_pos rfl, if_neg (by omega), if_neg (by omega),
    if_neg (by omega), if_pos h2, utf8DecAux, if_neg (by omega),
    if_neg (by omega), utf8DecAux, if_neg (by omega), if_pos (by omega)]

theorem utf8Decode_b4 (b0 : Nat) (h1 : 0xF0 ≤ b0)
    (b1 b2 b3 : Nat) (rest : List Nat) :
    utf8Decode (b0 :: b1 :: b2 :: b3 :: rest)
      = ((((b0 - 0xF0) * 64 + (b1 - 0x80)) * 64 + (b2 - 0x80)) * 64
          + (b3 - 0x80)) :: utf8Decode rest := by
  unfold utf8Decode
  rw [utf8DecAux, if_pos rfl, if_neg (by omega), if_neg (by omega),
    if_neg (by omega), if_neg (by omega), utf8DecAux, if_neg (by omega),
    if_neg (by omega), utf8DecAux, if_neg (by omega), if_neg (by omega),
    utf8DecAux, if_neg (by omega), if_pos (by omega)]

theorem utf8Decode_encChar_append {cp : Nat} (h : validScalar cp = true)
    (tail : List Nat) :
    utf8Decode (encChar cp ++ tail) = cp :: utf8Decode tail := by
  simp only [validScalar, Bool.and_eq_true, Bool.not_eq_true',
    Bool.and_eq_false_iff, decide_eq_true_eq, decide_eq_false_iff_not] at h
  unfold encChar
  by_cases h1 : cp < 0x80
  · rw [if_pos h1]
    simp only [List.cons_append, List.nil_append]
    exact utf8Decode_b1 cp h1 tail
  · rw [if_neg h1]
    by_cases h2 : cp < 0x800
    · rw [if_pos h2]
      simp only [List.cons_append, List.nil_append]
      rw [utf8Decode_b2 (0xC0 + cp / 64) (by omega) (by omega)]
      congr 1
      omega
    · rw [if_neg h2]
      by_cases h3 : cp < 0x10000
      · rw [if_pos h3]
        simp only [List.cons_append, List.nil_append]
        rw [utf8Decode_b3 (0xE0 + cp / 4096) (by omega) (by omega)]
        congr 1
        omega
      · rw [if_neg h3]
        have hc : cp < 0x110000 := h.1
        simp only [List.cons_append, List.nil_append]
        rw [utf8Decode_b4 (0xF0 + cp / 262144) (by omega)]
        congr 1
        omega

theorem utf8Decode_utf8Encode {cps : List Nat}
    (h : cps.all validScalar = true) :
    utf8Decode (utf8Encode cps) = cps := by
  induction cps with
  | nil => rfl
  | cons cp rest ih =>
    simp only [List.all_cons, Bool.and_eq_true] at h
    rw [utf8Encode, utf8Decode_encChar_append h.1, ih h.2]

theorem encChar_length_pos (cp : Nat) : 0 < (encChar cp).length := by
  unfold encChar
  split_ifs <;> simp

theorem encChar_ne_zero {cp : Nat} (h0 : cp ≠ 0) :
    ∀ byte ∈ encChar cp, byte ≠ 0 := by
  intro byte hb
  unfold encChar at hb
  split_ifs at hb with h1 h2 h3 <;> simp only [List.mem_cons,
    List.mem_singleton, List.not_mem_nil, or_false] at hb <;> omega

theorem utf8Encode_ne_zero {cps : List Nat}
    (h : cps.all (fun cp => cp != 0) = true) :
    ∀ byte ∈ utf8Encode cps, byte ≠ 0 := by
  induction cps with
  | nil => intro byte hb; simp [utf8Encode] at hb
  | cons cp rest ih =>
    simp only [List.all_cons, Bool.and_eq_true, bne_iff_ne, ne_eq] at h
    intro byte hb
    rw [utf8Encode, List.mem_append] at hb
    rcases hb with hb | hb
    · exact encChar_ne_zero h.1 byte hb
    · exact ih (by simpa using h.2) byte hb

theorem takeWhile_ne_zero_append_replicate (bs : List Nat)
    (h : ∀ byte ∈ bs, byte ≠ 0) (n : Nat) :
    (bs ++ List.replicate n 0).takeWhile (fun byte => byte != 0) = bs := by
  induction bs with
  | nil =>
    cases n with
    | zero => rfl
    | succ m => simp [List.replicate_succ, List.takeWhile]
  | cons byte rest ih =>
    have hb : byte ≠ 0 := h byte (by simp)
    simp only [List.cons_append, List.takeWhile_cons]
    rw [if_pos (by simpa using hb)]
    rw [ih (fun x hx => h x (by simp [hx]))]

theorem utf8TruncEnc_length_le (limit : Nat) (cps : List Nat) :
    (utf8TruncEnc limit cps).length ≤ limit := by
  induction cps generalizing limit with
  | nil => simp [utf8TruncEnc]
  | cons cp rest ih =>
    unfold utf8TruncEnc
    by_cases h : (encChar cp).length ≤ limit
    · rw [if_pos h]
      simp only [List.length_append]
      have := ih (limit - (encChar cp).length)
      omega
    · rw [if_neg h]
      simp

theorem utf8TruncEnc_of_fits {limit : Nat} {cps : List Nat}
    (h : utf8Len cps ≤ limit) : utf8TruncEnc limit cps = utf8Encode cps := by
  induction cps generalizing limit with
  | nil => rfl
  | cons cp rest ih =>
    unfold utf8Len utf8Encode at h
    rw [List.length_append] at h
    unfold utf8TruncEnc utf8Encode
    rw [if_pos (by omega)]
    rw [ih (by unfold utf8Len; omega)]

theorem svFromStringSized_length {size : Nat} (cps : List Nat) :
    (svFromStringSized size cps).length = size := by
  unfold svFromStringSized
  have := utf8TruncEnc_length_le size cps
  simp only [List.length_append, List.length_replicate]
  omega

/-- Round trip of a fitting, zero-free, valid string through a zero-padded
byte region. -/
theorem svToString_encode_pad {cps : List Nat}
    (hval : cps.all validScalar = true)
    (hnz : cps.all (fun cp => cp != 0) = true) (n : Nat) :
    svToString (utf8Encode cps ++ List.replicate n 0) = cps := by
  unfold svToString
  rw [takeWhile_ne_zero_append_replicate _ (utf8Encode_ne_zero hnz) n]
  exact utf8Decode_utf8Encode hval

theorem svToString_sized {size : Nat} {cps : List Nat}
    (hval : cps.all validScalar = true)
    (hnz : cps.all (fun cp => cp != 0) = true)
    (hfit : utf8Len cps ≤ size) :
    svToString (svFromStringSized size cps) = cps := by
  unfold svFromStringSized
  rw [utf8TruncEnc_of_fits hfit]
  exact svToString_encode_pad hval hnz _

/-! ## Resolution-layer lemmas -/
theorem stepField_length_some {type : RawType} {size length : Option Nat}
    {le : Bool} {ty' : RawType} {len' sl' : Option Nat}
    {c' : Option CtorRef} {fl : Nat}
    (h : stepField type size length le = .ok (ty', len', sl', c', fl))
    (hs : type = .token "string" → length.isSome) :
    len' = some fl := by
  match type with
  | .token t =>
    rcases hf : fieldSizes t with _ | width <;>
      simp only [stepField, hf] at h
    · by_cases ht : t = "string"
      · rcases hl : length with _ | l
        · have := hs (by rw [ht])
          rw [hl] at this
          simp at this
        · by_cases hz : size.getD 0 = 0 <;>
            simp only [ht, if_true, if_false, hz, hl, if_pos, if_neg,
              reduceIte, Except.ok.injEq, Prod.mk.injEq] at h <;>
            (obtain ⟨-, h2, -, -, h5⟩ := h; simp [← h2, ← h5])
      · simp [ht] at h
    · by_cases hz : size.getD 0 = 0 <;>
        simp only [hz, reduceIte, Except.ok.injEq, Prod.mk.injEq] at h <;>
        (obtain ⟨-, h2, -, -, h5⟩ := h; simp [← h2, ← h5])
  | .view nested =>
    rcases hn : initFields nested 0 with e | p
    · simp [stepField, hn] at h
    · rcases p with ⟨nested', olen⟩
      by_cases hz : size.getD 0 = 0 <;>
        simp only [stepField, hn, hz, reduceIte, Except.ok.injEq,
          Prod.mk.injEq] at h <;>
        (obtain ⟨-, h2, -, -, h5⟩ := h; simp [← h2, ← h5])

theorem stringLengthsDeclared_cons {n : String} {t : RawType}
    {s l : Option Nat} {le : Bool} {st sl : Option Nat} {c : Option CtorRef}
    {rest : RawFields}
    (h : stringLengthsDeclared (.cons n t s l le st sl c rest) = true) :
    (t = .token "string" → l.isSome = true)
      ∧ stringLengthsDeclared rest = true := by
  cases t with
  | token tk =>
    by_cases htk : tk = "string"
    · simp only [stringLengthsDeclared, htk, reduceIte, if_pos,
        Bool.and_eq_true] at h
      exact ⟨fun _ => h.1, h.2⟩
    · simp only [stringLengthsDeclared, htk, reduceIte, if_neg,
        Bool.and_eq_true] at h
      refine ⟨fun he => ?_, h.2⟩
      injection he with he'
      exact absurd he' htk
  | view nested =>
    simp only [stringLengthsDeclared, Bool.and_eq_true] at h
    exact ⟨fun he => by exact RawType.noConfusion he, h.2⟩

/-- A successful resolution pass packs the fields: starting at
`lastOffset = off`, every field gets `start = off_i`,
`off_{i+1} = off_i + length_i`, and the returned total is
`off` plus the sum of the assigned lengths. -/
theorem initFields_packed :
    ∀ (sch : RawFields) (off : Nat) (sch' : RawFields) (total : Nat),
      stringLengthsDeclared sch = true →
      initFields sch off = .ok (sch', total) →
      packedFrom sch' off = true ∧ total = off + sumLenRaw sch'
  | .nil, off, sch', total => by
    intro _ h
    simp only [initFields, Except.ok.injEq, Prod.mk.injEq] at h
    obtain ⟨h1, h2⟩ := h
    subst h1
    subst h2
    simp [packedFrom, sumLenRaw]
  | .cons name type size length le st sl0 c0 rest, off, sch', total => by
    intro hdecl h
    obtain ⟨hs0, hdecl2⟩ := stringLengthsDeclared_cons hdecl
    rcases hstep : stepField type size length le with msg | res
    · simp [initFields, hstep] at h
    · obtain ⟨ty', len', sl', ctor', fl⟩ := res
      rcases hrest : initFields rest (off + fl) with e2 | p2
      · simp [initFields, hstep, hrest] at h
      · obtain ⟨rest', total2⟩ := p2
        simp only [initFields, hstep, hrest, Except.ok.injEq,
          Prod.mk.injEq] at h
        obtain ⟨hsch, htot⟩ := h
        subst htot
        have hlen : len' = some fl := stepField_length_some hstep hs0
        obtain ⟨hp, ht2⟩ :=
          initFields_packed rest (off + fl) rest' total2 hdecl2 hrest
        subst hsch
        refine ⟨?_, ?_⟩
        · simp only [packedFrom, hlen]
          simp [hp]
        · simp only [sumLenRaw, hlen, Option.getD_some]
          omega

/-- A failing resolution pass has still assigned `start` to the first
field (the loop mutates `field.start` before dispatching on the type). -/
theorem initFields_error_headStart :
    ∀ (sch : RawFields) (off : Nat) (sch2 : RawFields) (msg : String),
      initFields sch off = .error (sch2, msg) → headStart sch2 = some off
  | .nil, off, sch2, msg => by
    intro h
    simp [initFields] at h
  | .cons name type size length le st sl0 c0 rest, off, sch2, msg => by
    intro h
    rcases hstep : stepField type size length le with m | res
    · simp only [initFields, hstep, Except.error.injEq, Prod.mk.injEq] at h
      rw [← h.1]
      rfl
    · obtain ⟨ty', len', sl', ctor', fl⟩ := res
      rcases hrest : initFields rest (off + fl) with e2 | p2
      · simp only [initFields, hstep, hrest, Except.error.injEq,
          Prod.mk.injEq] at h
        rw [← h.1]
        rfl
      · simp [initFields, hstep, hrest] at h

mutual
/-- The per-field `switch` throws exactly when the declared type is (or
transitively contains) an unrecognised token. -/
theorem stepField_fails (size length : Option Nat) (le : Bool) :
    ∀ (type : RawType),
      isErr (stepField type size length le) = hasInvalidR type
  | .token t => by
    rcases hf : fieldSizes t with _ | width <;>
      simp only [stepField, hf, hasInvalidR, validToken]
    · by_cases ht : t = "string"
      · by_cases hz : size.getD 0 = 0 <;>
          simp [ht, hz, isErr, hf]
      · simp [ht, isErr, hf]
    · by_cases hz : size.getD 0 = 0 <;> simp [hz, isErr, hf]
  | .view nested => by
    have ih := initFields_fails nested 0
    rcases hn : initFields nested 0 with e | p
    · simp only [stepField, hn]
      rw [hn] at ih
      simp only [isErr] at ih ⊢
      simp [hasInvalidR, ← ih]
    · rcases p with ⟨nested', olen⟩
      rw [hn] at ih
      simp only [isErr] at ih
      by_cases hz : size.getD 0 = 0 <;>
        simp [stepField, hn, hz, isErr, hasInvalidR, ← ih]

/-- The resolution loop throws exactly when some field's declared type is
(or transitively contains) an unrecognised token. -/
theorem initFields_fails :
    ∀ (sch : RawFields) (off : Nat),
      isErr (initFields sch off) = hasInvalidF sch
  | .nil, off => by simp [initFields, isErr, hasInvalidF]
  | .cons name type size length le st sl0 c0 rest, off => by
    have hstepf := stepField_fails size length le type
    rcases hstep : stepField type size length le with msg | res
    · rw [hstep] at hstepf
      simp only [isErr] at hstepf
      simp [initFields, hstep, isErr, hasInvalidF, ← hstepf]
    · obtain ⟨ty', len', sl', ctor', fl⟩ := res
      rw [hstep] at hstepf
      simp only [isErr] at hstepf
      have ih := initFields_fails rest (off + fl)
      rcases hrest : initFields rest (off + fl) with e2 | p2
      · rw [hrest] at ih
        simp only [isErr] at ih
        simp [initFields, hstep, hrest, isErr, hasInvalidF, ← hstepf, ← ih]
      · rw [hrest] at ih
        simp only [isErr] at ih
        simp [initFields, hstep, hrest, isErr, hasInvalidF, ← hstepf, ← ih]
end

/-- **C2.** For every schema (whose string fields declare their lengths,
as the data model requires), resolution triggered through `getLength` is
deterministic — it is a function of the schema — and idempotent: a second
`getLength` on the resolved struct type returns the identical state and
length.  The resolved layout is packed in declaration order with no
padding (`start[0] = 0`, `start[i] = start[i-1] + length[i-1]`, both in
`packedFrom _ 0`), and `objectLength` equals the sum of the field
lengths. -/
theorem c2_resolution_idempotent_and_packed
    (sch : RawFields) (S1 : StructType) (len : Nat)
    (hdecl : stringLengthsDeclared sch = true)
    (h : getLengthS (mkStruct sch) = (S1, .ok len)) :
    getLengthS S1 = (S1, .ok len)
      ∧ packedFrom S1.schema 0 = true
      ∧ len = S1.objectLength
      ∧ S1.objectLength = sumLenRaw S1.schema := by
  unfold getLengthS mkStruct at h
  simp only [Bool.false_eq_true, if_false, reduceIte] at h
  rcases hres : initFields sch 0 with e | p
  · rw [hres] at h
    rcases e with ⟨sch2, m⟩
    simp at h
  · rcases p with ⟨sch', total⟩
    rw [hres] at h
    simp only [Prod.mk.injEq, Except.ok.injEq] at h
    obtain ⟨hS, hlen⟩ := h
    obtain ⟨hp, ht⟩ := initFields_packed sch 0 sch' total hdecl hres
    subst hS
    refine ⟨?_, by simpa using hp, by simp [hlen], by simpa using ht⟩
    unfold getLengthS
    simp [hlen]

/-- Witness for C2 at the spec's own example `{id: uint32, name:
string(10)}` (`objectLength = 14`). -/
theorem c2_witness :
    getLengthS exStructC2 = (exStructC2, .ok 14)
      ∧ packedFrom exStructC2.schema 0 = true
      ∧ (14 : Nat) = exStructC2.objectLength
      ∧ exStructC2.objectLength = sumLenRaw exStructC2.schema :=
  c2_resolution_idempotent_and_packed exSchemaC2 exStructC2 14 rfl rfl

/-- **C4, counterexample.**  The claim says a failing resolution leaves
*no* field descriptor mutated (no `start`/`length` assigned to *any*
field).  On `{a: uint8, b: "bogus"}` resolution fails with the invalid
type error, yet field `a` has `start = 0` *and* `length = 1` assigned and
the failing field `b` has `start = 1` assigned — the loop mutates
descriptors in place before it throws. -/
theorem c4_counterexample :
    (getLengthS (mkStruct badSchemaC4)).2
        = .error "Type \"bogus\" is not a valid type."
      ∧ (getLengthS (mkStruct badSchemaC4)).1.schema
        = .cons "a" (.token "uint8") none (some 1) false (some 0) none none
            (.cons "b" (.token "bogus") none none false (some 1) none none
              .nil) :=
  ⟨rfl, rfl⟩

/-- **C4, amended.**  A failing resolution does leave the *struct type*
unresolved — `isInitialized` stays `false` and the `objectLength` /
`fields` statics stay at their defaults, so resolution never *succeeds*
partially — but field descriptors of the schema *have* been mutated in
place: in particular the first field's `start` has been assigned
(`initialize` assigns `field.start` before dispatching on the type). -/
theorem c4_amended_failure_leaves_type_unresolved
    (sch : RawFields) (S' : StructType) (msg : String)
    (h : getLengthS (mkStruct sch) = (S', .error msg)) :
    S'.isInit = false ∧ S'.objectLength = 0 ∧ S'.fields = none
      ∧ headStart S'.schema = some 0 := by
  unfold getLengthS mkStruct at h
  simp only [Bool.false_eq_true, if_false, reduceIte] at h
  rcases hres : initFields sch 0 with e | p
  · rcases e with ⟨sch2, m⟩
    rw [hres] at h
    simp only [Prod.mk.injEq, Except.error.injEq] at h
    obtain ⟨hS, hm⟩ := h
    subst hS
    exact ⟨rfl, rfl, rfl, initFields_error_headStart sch 0 sch2 m hres⟩
  · rcases p with ⟨sch', total⟩
    rw [hres] at h
    simp at h

/-- Witness for the amended C4 at `{a: uint8, b: "bogus"}`. -/
theorem c4_witness :
    (⟨.cons "a" (.token "uint8") none (some 1) false (some 0) none none
        (.cons "b" (.token "bogus") none none false (some 1) none none
          .nil), 0, none, false⟩ : StructType).isInit = false
      ∧ (⟨.cons "a" (.token "uint8") none (some 1) false (some 0) none none
          (.cons "b" (.token "bogus") none none false (some 1) none none
            .nil), 0, none, false⟩ : StructType).objectLength = 0
      ∧ (⟨.cons "a" (.token "uint8") none (some 1) false (some 0) none none
          (.cons "b" (.token "bogus") none none false (some 1) none none
            .nil), 0, none, false⟩ : StructType).fields = none
      ∧ headStart (⟨.cons "a" (.token "uint8") none (some 1) false (some 0)
          none none
          (.cons "b" (.token "bogus") none none false (some 1) none none
            .nil), 0, none, false⟩ : StructType).schema = some 0 :=
  c4_amended_failure_leaves_type_unresolved badSchemaC4 _
    "Type \"bogus\" is not a valid type." rfl

/-- **C5.**  First-use resolution (`getLength` on a fresh struct type)
fails exactly when some field's declared `type` — transitively through
nested view classes — is neither a recognised numeric token, nor
`"string"`, nor a view class reference.  The failure happens during this
first `getLength`, not at field access: the access paths (`getVal`,
`setVal`, `getFields`, `setFields` below) operate on resolved descriptors
and have no invalid-schema outcome. -/
theorem c5_invalid_token_fails_at_resolution (sch : RawFields) :
    resolveFails sch = hasInvalidF sch := by
  have hx := initFields_fails sch 0
  unfold resolveFails getLengthS mkStruct
  simp only [Bool.false_eq_true, if_false, reduceIte]
  rcases hres : initFields sch 0 with e | p
  · rcases e with ⟨sch2, m⟩
    rw [hres] at hx
    simp only [isErr] at hx
    simp [← hx]
  · rcases p with ⟨sch', total⟩
    rw [hres] at hx
    simp only [isErr] at hx
    simp [← hx]

/-! ## Access-layer lemmas: scalars -/
theorem inRange_zero (k : PrimKind) : inRange k 0 = true := by
  cases k <;> simp [inRange, kindWidth, kindSigned]

theorem bytesToInt_zeros (k : PrimKind) (le : Bool) :
    bytesToInt k le (List.replicate (kindWidth k) 0) = 0 := by
  have hz : ∀ w : Nat, fromBytesLE (List.replicate w 0) = 0 := by
    intro w
    induction w with
    | zero => rfl
    | succ n ih => simp [List.replicate_succ, fromBytesLE, ih]
  have hpos : 0 < 256 ^ kindWidth k / 2 := by
    cases k <;> simp [kindWidth]
  unfold bytesToInt
  cases le <;> cases hks : kindSigned k <;>
    simp [List.reverse_replicate, hz, hks, hpos]

theorem getPrimAt_congr {k : PrimKind} {le : Bool} {b b' : Buffer}
    {pos : Nat} (h : agreeOn b b' pos (kindWidth k)) :
    getPrimAt k le b pos = getPrimAt k le b' pos := by
  unfold getPrimAt
  rw [readBytes_eq_of_agreeOn h]

theorem setPrimAt_length {k : PrimKind} {le : Bool} {b : Buffer}
    {pos : Nat} {v : Int} (h : pos + kindWidth k ≤ b.length) :
    (setPrimAt k le b pos v).length = b.length := by
  unfold setPrimAt
  rw [writeBytes_length]
  rw [intToBytes_length]
  exact h

theorem setPrimAt_frame {k : PrimKind} {le : Bool} {b : Buffer}
    {pos : Nat} {v : Int} (h : pos + kindWidth k ≤ b.length) {j : Nat}
    (hj : j < pos ∨ pos + kindWidth k ≤ j) :
    (setPrimAt k le b pos v)[j]? = b[j]? := by
  unfold setPrimAt
  rcases hj with hj | hj
  · exact getElem?_writeBytes_lt (by rw [intToBytes_length]; exact h) hj
  · exact getElem?_writeBytes_ge (by rw [intToBytes_length]; exact h)
      (by rw [intToBytes_length]; exact hj)

theorem setPrim_readback {k : PrimKind} {le : Bool} {b : Buffer}
    {pos : Nat} {v : Int} (h : pos + kindWidth k ≤ b.length)
    (hr : inRange k v = true) :
    getPrimAt k le (setPrimAt k le b pos v) pos = v := by
  unfold getPrimAt setPrimAt
  have hlen : pos + (intToBytes k le v).length ≤ b.length := by
    rw [intToBytes_length]; exact h
  have hx := readBytes_writeBytes_self hlen
  rw [intToBytes_length] at hx
  rw [hx]
  exact bytesToInt_intToBytes k le hr

theorem coerceNum_of_numOk {k : PrimKind} {v : Value}
    (h : numOk k v = true) :
    ∃ n, coerceNum k v = .ok n ∧ inRange k n = true ∧ primValue k n = v := by
  unfold numOk at h
  match v with
  | .num n =>
    simp only [Bool.and_eq_true, Bool.not_eq_true'] at h
    refine ⟨n, ?_, h.2, ?_⟩
    · simp [coerceNum, h.1]
    · simp [primValue, h.1]
  | .big n =>
    simp only [Bool.and_eq_true] at h
    refine ⟨n, ?_, h.2, ?_⟩
    · simp [coerceNum, h.1]
    · simp [primValue, h.1]

/-! ## Access-layer lemmas: byte windows -/
theorem readBytes_split {b : Buffer} {pos k1 k2 : Nat} :
    readBytes b pos (k1 + k2)
      = readBytes b pos k1 ++ readBytes b (pos + k1) k2 := by
  simp only [readBytes]
  rw [List.take_add, List.drop_drop]

/-- Reading a sub-window of a freshly written block returns the written
bytes. -/
theorem readBytes_writeBytes_within {b : Buffer} {pos : Nat} {bs : List Nat}
    (hb : pos + bs.length ≤ b.length) {a k : Nat}
    (hk : a + k ≤ bs.length) :
    readBytes (writeBytes b pos bs) (pos + a) k = (bs.drop a).take k := by
  apply List.ext_getElem?
  intro j
  simp only [readBytes, List.getElem?_take, List.getElem?_drop]
  by_cases hj : j < k
  · rw [if_pos hj, if_pos hj,
      getElem?_writeBytes_window hb (by omega) (by omega)]
    congr 1
    omega
  · rw [if_neg hj, if_neg hj]

/-! ## Access-layer lemmas: typed-array loops -/
theorem readPrims_congr (k : PrimKind) (le : Bool) :
    ∀ (count : Nat) (b b' : Buffer) (p : Nat),
      agreeOn b b' p (count * kindWidth k) →
      readPrims k le b p count = readPrims k le b' p count := by
  intro count
  induction count with
  | zero => intro b b' p _; rfl
  | succ n ih =>
    intro b b' p h
    rw [Nat.succ_mul] at h
    unfold readPrims
    rw [getPrimAt_congr (agreeOn_mono h (Nat.le_refl p) (by omega)),
      ih b b' (p + kindWidth k) (agreeOn_mono h (by omega) (by omega))]

theorem readPrims_zeros (k : PrimKind) (le : Bool) :
    ∀ (count : Nat) (b : Buffer) (p : Nat),
      readBytes b p (count * kindWidth k)
        = List.replicate (count * kindWidth k) 0 →
      p + count * kindWidth k ≤ b.length →
      readPrims k le b p count = List.replicate count (primValue k 0) := by
  intro count
  induction count with
  | zero => intro b p _ _; rfl
  | succ n ih =>
    intro b p hz hb
    rw [Nat.succ_mul] at hz hb
    rw [Nat.add_comm (n * kindWidth k) (kindWidth k)] at hz
    rw [readBytes_split, List.replicate_add] at hz
    have hlen1 : (readBytes b p (kindWidth k)).length = kindWidth k :=
      readBytes_length (by omega)
    obtain ⟨h1, h2⟩ := List.append_inj hz
      (by rw [hlen1, List.length_replicate])
    unfold readPrims
    rw [ih b (p + kindWidth k) h2 (by omega), List.replicate_succ]
    unfold getPrimAt
    rw [h1, bytesToInt_zeros]

theorem writePrims_frame (k : PrimKind) (le : Bool) :
    ∀ (vs : List Value) (b : Buffer) (p : Nat) (b' : Buffer),
      writePrims k le b p vs = .ok b' →
      p + vs.length * kindWidth k ≤ b.length →
      b'.length = b.length
        ∧ ∀ j, (j < p ∨ p + vs.length * kindWidth k ≤ j) → b'[j]? = b[j]? := by
  intro vs
  induction vs with
  | nil =>
    intro b p b' hw _
    simp only [writePrims, Except.ok.injEq] at hw
    subst hw
    exact ⟨rfl, fun j _ => rfl⟩
  | cons v rest ih =>
    intro b p b' hw hb
    rw [List.length_cons, Nat.succ_mul] at hb
    rcases hc : coerceNum k v with e | n
    · simp [writePrims, hc] at hw
    · simp only [writePrims, hc] at hw
      have hb1 : p + kindWidth k ≤ b.length := by omega
      have hlen1 := @setPrimAt_length k le _ _ n hb1
      obtain ⟨hlen', hframe'⟩ := ih (setPrimAt k le b p n) (p + kindWidth k)
        b' hw (by rw [hlen1]; omega)
      refine ⟨hlen'.trans hlen1, ?_⟩
      intro j hj
      rw [List.length_cons, Nat.succ_mul] at hj
      rw [hframe' j (by omega)]
      exact setPrimAt_frame hb1 (by omega)

theorem writePrims_ok (k : PrimKind) (le : Bool) :
    ∀ (vs : List Value) (b : Buffer) (p : Nat),
      vs.all (numOk k) = true →
      p + vs.length * kindWidth k ≤ b.length →
      ∃ b', writePrims k le b p vs = .ok b'
        ∧ b'.length = b.length
        ∧ (∀ j, (j < p ∨ p + vs.length * kindWidth k ≤ j) → b'[j]? = b[j]?)
        ∧ readPrims k le b' p vs.length = vs := by
  intro vs
  induction vs with
  | nil =>
    intro b p _ _
    exact ⟨b, rfl, rfl, fun j _ => rfl, rfl⟩
  | cons v rest ih =>
    intro b p hall hb
    simp only [List.all_cons, Bool.and_eq_true] at hall
    rw [List.length_cons, Nat.succ_mul] at hb
    obtain ⟨n, hc, hr, hpv⟩ := coerceNum_of_numOk hall.1
    have hb1 : p + kindWidth k ≤ b.length := by omega
    have hlen1 := @setPrimAt_length k le _ _ n hb1
    obtain ⟨b', hw, hlen', hframe', hread'⟩ :=
      ih (setPrimAt k le b p n) (p + kindWidth k) hall.2
        (by rw [hlen1]; omega)
    refine ⟨b', ?_, hlen'.trans hlen1, ?_, ?_⟩
    · simp only [writePrims, hc]
      exact hw
    · intro j hj
      rw [List.length_cons, Nat.succ_mul] at hj
      rw [hframe' j (by omega)]
      exact setPrimAt_frame hb1 (by omega)
    · rw [List.length_cons]
      unfold readPrims
      rw [hread']
      have hagree : agreeOn b' (setPrimAt k le b p n) p (kindWidth k) :=
        fun j hj => hframe' (p + j) (Or.inl (by omega))
      rw [getPrimAt_congr hagree, setPrim_readback hb1 hr, hpv]

/-! ## Access-layer lemmas: string-array loops -/
theorem strOk_shape {sl : Nat} {v : Value} (h : strOk sl v = true) :
    ∃ cps, v = .str cps
      ∧ cps.all validScalar = true
      ∧ cps.all (fun cp => cp != 0) = true
      ∧ utf8Len cps ≤ sl := by
  match v with
  | .str cps =>
    simp only [strOk, Bool.and_eq_true, List.all_eq_true] at h
    obtain ⟨hvz, hfit⟩ := h
    refine ⟨cps, rfl, ?_, ?_, by simpa using hfit⟩
    · simp only [List.all_eq_true]
      intro cp hcp
      exact (hvz cp hcp).1
    · simp only [List.all_eq_true]
      intro cp hcp
      exact (hvz cp hcp).2

theorem readStrSlots_congr (sl : Nat) :
    ∀ (count : Nat) (b b' : Buffer) (p : Nat),
      agreeOn b b' p (count * sl) →
      readStrSlots sl b p count = readStrSlots sl b' p count := by
  intro count
  induction count with
  | zero => intro b b' p _; rfl
  | succ n ih =>
    intro b b' p h
    rw [Nat.succ_mul] at h
    unfold readStrSlots
    rw [readBytes_eq_of_agreeOn (agreeOn_mono h (Nat.le_refl p) (by omega)),
      ih b b' (p + sl) (agreeOn_mono h (by omega) (by omega))]

theorem writeStrSlots_frame (sl : Nat) :
    ∀ (vs : List Value) (b : Buffer) (p : Nat),
      p + vs.length * sl ≤ b.length →
      (writeStrSlots sl b p vs).length = b.length
        ∧ ∀ j, (j < p ∨ p + vs.length * sl ≤ j) →
            (writeStrSlots sl b p vs)[j]? = b[j]? := by
  intro vs
  induction vs with
  | nil =>
    intro b p _
    exact ⟨rfl, fun j _ => rfl⟩
  | cons v rest ih =>
    intro b p hb
    rw [List.length_cons, Nat.succ_mul] at hb
    have hsl : (svFromStringSized sl (asStr v)).length = sl :=
      svFromStringSized_length _
    have hb1 : p + (svFromStringSized sl (asStr v)).length ≤ b.length := by
      rw [hsl]; omega
    have hlen1 := writeBytes_length hb1
    obtain ⟨hlen', hframe'⟩ :=
      ih (writeBytes b p (svFromStringSized sl (asStr v))) (p + sl)
        (by rw [hlen1]; omega)
    unfold writeStrSlots
    refine ⟨hlen'.trans hlen1, ?_⟩
    intro j hj
    rw [List.length_cons, Nat.succ_mul] at hj
    rw [hframe' j (by omega)]
    rcases hj with hj | hj
    · exact getElem?_writeBytes_lt hb1 hj
    · exact getElem?_writeBytes_ge hb1 (by rw [hsl]; omega)

theorem writeStrSlots_ok (sl : Nat) :
    ∀ (vs : List Value) (b : Buffer) (p : Nat),
      vs.all (strOk sl) = true →
      p + vs.length * sl ≤ b.length →
      (writeStrSlots sl b p vs).length = b.length
        ∧ (∀ j, (j < p ∨ p + vs.length * sl ≤ j) →
            (writeStrSlots sl b p vs)[j]? = b[j]?)
        ∧ readStrSlots sl (writeStrSlots sl b p vs) p vs.length = vs := by
  intro vs
  induction vs with
  | nil =>
    intro b p _ _
    exact ⟨rfl, fun j _ => rfl, rfl⟩
  | cons v rest ih =>
    intro b p hall hb
    simp only [List.all_cons, Bool.and_eq_true] at hall
    obtain ⟨cps, hv, hval, hnz, hfit⟩ := strOk_shape hall.1
    rw [List.length_cons, Nat.succ_mul] at hb
    have hsl : (svFromStringSized sl (asStr v)).length = sl :=
      svFromStringSized_length _
    have hb1 : p + (svFromStringSized sl (asStr v)).length ≤ b.length := by
      rw [hsl]; omega
    have hlen1 := writeBytes_length hb1
    set b1 := writeBytes b p (svFromStringSized sl (asStr v)) with hb1def
    obtain ⟨hlen', hframe', hread'⟩ :=
      ih b1 (p + sl) hall.2 (by rw [hlen1]; omega)
    have hfr : ∀ j, (j < p ∨ p + (rest.length * sl + sl) ≤ j) →
        (writeStrSlots sl b1 (p + sl) rest)[j]? = b[j]? := by
      intro j hj
      rw [hframe' j (by omega)]
      rcases hj with hj | hj
      · exact getElem?_writeBytes_lt hb1 hj
      · exact getElem?_writeBytes_ge hb1 (by rw [hsl]; omega)
    refine ⟨?_, ?_, ?_⟩
    · unfold writeStrSlots
      exact hlen'.trans hlen1
    · intro j hj
      rw [List.length_cons, Nat.succ_mul] at hj
      unfold writeStrSlots
      exact hfr j hj
    · rw [List.length_cons]
      unfold writeStrSlots readStrSlots
      rw [hread']
      have hagree : agreeOn (writeStrSlots sl b1 (p + sl) rest) b1 p sl :=
        fun j hj => hframe' (p + j) (Or.inl (by omega))
      rw [readBytes_eq_of_agreeOn hagree]
      have hself := readBytes_writeBytes_self hb1
      rw [hsl] at hself
      rw [← hb1def] at hself
      rw [hself, hv]
      show Value.str (svToString (svFromStringSized sl (asStr (Value.str cps))))
          :: rest = Value.str cps :: rest
      rw [show asStr (Value.str cps) = cps from rfl,
        svToString_sized hval hnz hfit]

/-! ## Access-layer lemmas: generic slot loops (`setArray`/`getArray`) -/
theorem readSlots_congr (readOne : Buffer → Nat → Value) (olen : Nat)
    (hro : ∀ b b' p, agreeOn b b' p olen → readOne b p = readOne b' p) :
    ∀ (count : Nat) (b b' : Buffer) (p : Nat),
      agreeOn b b' p (count * olen) →
      readSlots readOne olen b p count = readSlots readOne olen b' p count := by
  intro count
  induction count with
  | zero => intro b b' p _; rfl
  | succ n ih =>
    intro b b' p h
    rw [Nat.succ_mul] at h
    unfold readSlots
    rw [hro b b' p (agreeOn_mono h (Nat.le_refl p) (by omega)),
      ih b b' (p + olen) (agreeOn_mono h (by omega) (by omega))]

theorem writeSlots_frame (writeOne : Buffer → Nat → Value → Except String Buffer)
    (olen : Nat)
    (hw : ∀ b p v b2, writeOne b p v = .ok b2 → p + olen ≤ b.length →
      b2.length = b.length ∧ ∀ j, (j < p ∨ p + olen ≤ j) → b2[j]? = b[j]?) :
    ∀ (vs : List Value) (b : Buffer) (p : Nat) (b' : Buffer),
      writeSlots writeOne olen b p vs = .ok b' →
      p + vs.length * olen ≤ b.length →
      b'.length = b.length
        ∧ ∀ j, (j < p ∨ p + vs.length * olen ≤ j) → b'[j]? = b[j]? := by
  intro vs
  induction vs with
  | nil =>
    intro b p b' hs _
    simp only [writeSlots, Except.ok.injEq] at hs
    subst hs
    exact ⟨rfl, fun j _ => rfl⟩
  | cons v rest ih =>
    intro b p b' hs hb
    rw [List.length_cons, Nat.succ_mul] at hb
    rcases h1 : writeOne b p v with e | b1
    · simp [writeSlots, h1] at hs
    · simp only [writeSlots, h1] at hs
      obtain ⟨hlen1, hframe1⟩ := hw b p v b1 h1 (by omega)
      obtain ⟨hlen', hframe'⟩ := ih b1 (p + olen) b' hs (by rw [hlen1]; omega)
      refine ⟨hlen'.trans hlen1, ?_⟩
      intro j hj
      rw [List.length_cons, Nat.succ_mul] at hj
      rw [hframe' j (by omega)]
      exact hframe1 j (by omega)

theorem writeSlots_ok (writeOne : Buffer → Nat → Value → Except String Buffer)
    (readOne : Buffer → Nat → Value) (olen : Nat) (P : Value → Bool)
    (hw : ∀ b p v, P v = true → p + olen ≤ b.length →
      ∃ b2, writeOne b p v = .ok b2 ∧ b2.length = b.length
        ∧ (∀ j, (j < p ∨ p + olen ≤ j) → b2[j]? = b[j]?)
        ∧ readOne b2 p = v)
    (hro : ∀ b b' p, agreeOn b b' p olen → readOne b p = readOne b' p) :
    ∀ (vs : List Value) (b : Buffer) (p : Nat),
      vs.all P = true →
      p + vs.length * olen ≤ b.length →
      ∃ b', writeSlots writeOne olen b p vs = .ok b'
        ∧ b'.length = b.length
        ∧ (∀ j, (j < p ∨ p + vs.length * olen ≤ j) → b'[j]? = b[j]?)
        ∧ readSlots readOne olen b' p vs.length = vs := by
  intro vs
  induction vs with
  | nil =>
    intro b p _ _
    exact ⟨b, rfl, rfl, fun j _ => rfl, rfl⟩
  | cons v rest ih =>
    intro b p hall hb
    simp only [List.all_cons, Bool.and_eq_true] at hall
    rw [List.length_cons, Nat.succ_mul] at hb
    obtain ⟨b1, h1, hlen1, hframe1, hread1⟩ := hw b p v hall.1 (by omega)
    obtain ⟨b', hs, hlen', hframe', hread'⟩ :=
      ih b1 (p + olen) hall.2 (by rw [hlen1]; omega)
    refine ⟨b', ?_, hlen'.trans hlen1, ?_, ?_⟩
    · simp only [writeSlots, h1]
      exact hs
    · intro j hj
      rw [List.length_cons, Nat.succ_mul] at hj
      rw [hframe' j (by omega)]
      exact hframe1 j (by omega)
    · rw [List.length_cons]
      unfold readSlots
      rw [hread']
      have hagree : agreeOn b' b1 p olen :=
        fun j hj => hframe' (p + j) (Or.inl (by omega))
      rw [hro b' b1 p hagree, hread1]

/-! ## Reads depend only on the field's byte window -/
mutual
theorem getVal_congr :
    ∀ (d : RDesc) (len : Nat) (b b' : Buffer) (pos : Nat),
      descOk d len = true → agreeOn b b' pos len →
      getVal d b pos = getVal d b' pos
  | .prim k le, len, b, b', pos => by
    intro hd h
    simp only [descOk, beq_iff_eq] at hd
    subst hd
    unfold getVal
    rw [getPrimAt_congr h]
  | .tarr k le size, len, b, b', pos => by
    intro hd h
    simp only [descOk, beq_iff_eq] at hd
    subst hd
    unfold getVal
    rw [readPrims_congr k le size b b' pos h]
  | .strD sL, len, b, b', pos => by
    intro hd h
    simp only [descOk, beq_iff_eq] at hd
    subst hd
    unfold getVal
    rw [readBytes_eq_of_agreeOn h]
  | .sarr size sl, len, b, b', pos => by
    intro hd h
    simp only [descOk, beq_iff_eq] at hd
    subst hd
    unfold getVal
    rw [readStrSlots_congr sl size b b' pos h]
  | .objD sub olen, len, b, b', pos => by
    intro hd h
    simp only [descOk, Bool.and_eq_true, beq_iff_eq] at hd
    obtain ⟨⟨h1, h2⟩, h3⟩ := hd
    unfold getVal
    rw [getFields_congr sub 0 b b' pos h3
      (by rw [Nat.add_zero, ← h2, ← h1]; exact h)]
  | .arrD sub olen size, len, b, b', pos => by
    intro hd h
    simp only [descOk, Bool.and_eq_true, beq_iff_eq] at hd
    obtain ⟨⟨h1, h2⟩, h3⟩ := hd
    unfold getVal
    rw [readSlots_congr (fun bb p => .obj (getFields sub bb p)) olen
      (fun bb bb' p hag => by
        show Value.obj (getFields sub bb p) = Value.obj (getFields sub bb' p)
        rw [getFields_congr sub 0 bb bb' p h3
          (by rw [Nat.add_zero, ← h2]; exact hag)])
      size b b' pos (by rw [← h1]; exact h)]

theorem getFields_congr :
    ∀ (fs : RFields) (o : Nat) (b b' : Buffer) (pos : Nat),
      fieldsOkFrom fs o = true → agreeOn b b' (pos + o) (sumLen fs) →
      getFields fs b pos = getFields fs b' pos
  | .nil, o, b, b', pos => by
    intro _ _
    rfl
  | .cons name start len d rest, o, b, b', pos => by
    intro hf h
    simp only [fieldsOkFrom, Bool.and_eq_true, beq_iff_eq,
      Bool.not_eq_true'] at hf
    obtain ⟨⟨⟨hstart, hd⟩, hnm⟩, hrest⟩ := hf
    subst hstart
    simp only [sumLen] at h
    unfold getFields
    rw [getVal_congr d len b b' (pos + start)  hd
      (agreeOn_mono h (Nat.le_refl _) (by omega)),
      getFields_congr rest (start + len) b b' pos hrest
      (by
        have hx := @agreeOn_mono _ _ _ _ (pos + (start + len))
          (sumLen rest) h (by omega) (by omega)
        exact hx)]
end

/-! ## Writes stay inside the field's byte window (no `matches` needed) -/
theorem setStringAt_frame {b : Buffer} {pos len : Nat} {cps : List Nat}
    {b' : Buffer} (h : setStringAt b pos len cps = .ok b')
    (hb : pos + len ≤ b.length) :
    b'.length = b.length
      ∧ ∀ j, (j < pos ∨ pos + len ≤ j) → b'[j]? = b[j]? := by
  unfold setStringAt at h
  by_cases hfit : len < (svFromString cps).length
  · simp only [hfit, reduceIte] at h
    exact (Except.noConfusion h)
  · simp only [hfit, reduceIte, Except.ok.injEq] at h
    subst h
    have hb0 : pos + (List.replicate len (0 : Nat)).length ≤ b.length := by
      rw [List.length_replicate]; exact hb
    have hlen0 := writeBytes_length hb0
    have hb1 : pos + (svFromString cps).length
        ≤ (writeBytes b pos (List.replicate len 0)).length := by
      rw [hlen0]; omega
    refine ⟨(writeBytes_length hb1).trans hlen0, ?_⟩
    intro j hj
    have e1 : (writeBytes (writeBytes b pos (List.replicate len 0)) pos
        (svFromString cps))[j]?
        = (writeBytes b pos (List.replicate len 0))[j]? := by
      rcases hj with hj | hj
      · exact getElem?_writeBytes_lt hb1 hj
      · exact getElem?_writeBytes_ge hb1 (by omega)
    rw [e1]
    rcases hj with hj | hj
    · exact getElem?_writeBytes_lt hb0 hj
    · exact getElem?_writeBytes_ge hb0 (by rw [List.length_replicate]; omega)

mutual
theorem setVal_frame :
    ∀ (d : RDesc) (len : Nat) (b : Buffer) (pos : Nat) (v : Value)
      (b' : Buffer),
      descOk d len = true → setVal d b pos v = .ok b' →
      pos + len ≤ b.length →
      b'.length = b.length
        ∧ ∀ j, (j < pos ∨ pos + len ≤ j) → b'[j]? = b[j]?
  | .prim k le, len, b, pos, v, b' => by
    intro hd h hb
    simp only [descOk, beq_iff_eq] at hd
    subst hd
    rcases hc : coerceNum k v with e | n
    · simp only [setVal, hc] at h
      exact (Except.noConfusion h)
    · simp only [setVal, hc] at h
      injection h with h
      subst h
      exact ⟨setPrimAt_length hb, fun j hj => setPrimAt_frame hb hj⟩
  | .tarr k le size, len, b, pos, v, b' => by
    intro hd h hb
    simp only [descOk, beq_iff_eq] at hd
    subst hd
    simp only [setVal] at h
    have htk : ((asArr v).take size).length * kindWidth k
        ≤ size * kindWidth k :=
      Nat.mul_le_mul_right _ (List.length_take_le _ _)
    obtain ⟨hlen, hframe⟩ := writePrims_frame k le ((asArr v).take size) b pos
      b' h (by omega)
    exact ⟨hlen, fun j hj => hframe j (by omega)⟩
  | .strD sL, len, b, pos, v, b' => by
    intro hd h hb
    simp only [descOk, beq_iff_eq] at hd
    subst hd
    exact setStringAt_frame h hb
  | .sarr size sl, len, b, pos, v, b' => by
    intro hd h hb
    simp only [descOk, beq_iff_eq] at hd
    subst hd
    simp only [setVal, setStringArrayAt, Except.ok.injEq] at h
    subst h
    have hb0 : pos + (List.replicate (size * sl) (0 : Nat)).length
        ≤ b.length := by
      rw [List.length_replicate]; exact hb
    have hlen0 := writeBytes_length hb0
    have htk : ((asArr v).take size).length * sl ≤ size * sl :=
      Nat.mul_le_mul_right _ (List.length_take_le _ _)
    obtain ⟨hlen1, hframe1⟩ := writeStrSlots_frame sl ((asArr v).take size)
      (writeBytes b pos (List.replicate (size * sl) 0)) pos
      (by rw [hlen0]; omega)
    refine ⟨hlen1.trans hlen0, ?_⟩
    intro j hj
    rw [hframe1 j (by omega)]
    rcases hj with hj | hj
    · exact getElem?_writeBytes_lt hb0 hj
    · exact getElem?_writeBytes_ge hb0
        (by rw [List.length_replicate]; omega)
  | .objD sub olen, len, b, pos, v, b' => by
    intro hd h hb
    simp only [descOk, Bool.and_eq_true, beq_iff_eq] at hd
    obtain ⟨⟨h1, h2⟩, h3⟩ := hd
    simp only [setVal] at h
    obtain ⟨hlen, hframe⟩ := setFields_frame sub 0 b pos (asObj v) b' h3 h
      (by omega)
    rw [Nat.add_zero] at hframe
    exact ⟨hlen, fun j hj => hframe j (by omega)⟩
  | .arrD sub olen size, len, b, pos, v, b' => by
    intro hd h hb
    simp only [descOk, Bool.and_eq_true, beq_iff_eq] at hd
    obtain ⟨⟨h1, h2⟩, h3⟩ := hd
    simp only [setVal] at h
    have htk : ((asArr v).take size).length * olen ≤ size * olen :=
      Nat.mul_le_mul_right _ (List.length_take_le _ _)
    obtain ⟨hlen, hframe⟩ := writeSlots_frame
      (fun bb p el => setFieldsU sub bb p (asObj el)) olen
      (fun bb pp vv bb2 hwrite hbb => by
        obtain ⟨hl, hf⟩ := setFieldsU_frame sub 0 bb pp (asObj vv) bb2 h3
          hwrite (by omega)
        rw [Nat.add_zero] at hf
        exact ⟨hl, fun j hj => hf j (by omega)⟩)
      ((asArr v).take size) b pos b' h (by omega)
    exact ⟨hlen, fun j hj => hframe j (by omega)⟩

theorem setFields_frame :
    ∀ (fs : RFields) (o : Nat) (b : Buffer) (pos : Nat)
      (pairs : List (String × Value)) (b' : Buffer),
      fieldsOkFrom fs o = true → setFields fs b pos pairs = .ok b' →
      pos + o + sumLen fs ≤ b.length →
      b'.length = b.length
        ∧ ∀ j, (j < pos + o ∨ pos + o + sumLen fs ≤ j) → b'[j]? = b[j]?
  | .nil, o, b, pos, pairs, b' => by
    intro _ h _
    simp only [setFields, Except.ok.injEq] at h
    subst h
    exact ⟨rfl, fun j _ => rfl⟩
  | .cons name start len d rest, o, b, pos, pairs, b' => by
    intro hf h hb
    simp only [fieldsOkFrom, Bool.and_eq_true, beq_iff_eq,
      Bool.not_eq_true'] at hf
    obtain ⟨⟨⟨hstart, hd⟩, hnm⟩, hrest⟩ := hf
    subst hstart
    simp only [sumLen] at hb ⊢
    rcases hlk : lookupVal pairs name with _ | v
    · simp only [setFields, hlk] at h
      obtain ⟨hlen, hframe⟩ := setFields_frame rest (start + len) b pos pairs
        b' hrest h (by omega)
      exact ⟨hlen, fun j hj => hframe j (by omega)⟩
    · rcases hsv : setVal d b (pos + start) v with e | b1
      · simp only [setFields, hlk, hsv] at h
        exact (Except.noConfusion h)
      · simp only [setFields, hlk, hsv] at h
        obtain ⟨hlen1, hframe1⟩ := setVal_frame d len b (pos + start) v b1 hd
          hsv (by omega)
        obtain ⟨hlen, hframe⟩ := setFields_frame rest (start + len) b1 pos
          pairs b' hrest h (by rw [hlen1]; omega)
        refine ⟨hlen.trans hlen1, ?_⟩
        intro j hj
        rw [hframe j (by omega)]
        exact hframe1 j (by omega)

theorem setFieldsU_frame :
    ∀ (fs : RFields) (o : Nat) (b : Buffer) (pos : Nat)
      (pairs : List (String × Value)) (b' : Buffer),
      fieldsOkFrom fs o = true → setFieldsU fs b pos pairs = .ok b' →
      pos + o + sumLen fs ≤ b.length →
      b'.length = b.length
        ∧ ∀ j, (j < pos + o ∨ pos + o + sumLen fs ≤ j) → b'[j]? = b[j]?
  | .nil, o, b, pos, pairs, b' => by
    intro _ h _
    simp only [setFieldsU, Except.ok.injEq] at h
    subst h
    exact ⟨rfl, fun j _ => rfl⟩
  | .cons name start len d rest, o, b, pos, pairs, b' => by
    intro hf h hb
    simp only [fieldsOkFrom, Bool.and_eq_true, beq_iff_eq,
      Bool.not_eq_true'] at hf
    obtain ⟨⟨⟨hstart, hd⟩, hnm⟩, hrest⟩ := hf
    subst hstart
    simp only [sumLen] at hb ⊢
    rcases hsv : setVal d b (pos + start)
        ((lookupVal pairs name).getD .undef) with e | b1
    · simp only [setFieldsU, hsv] at h
      exact (Except.noConfusion h)
    · simp only [setFieldsU, hsv] at h
      obtain ⟨hlen1, hframe1⟩ := setVal_frame d len b (pos + start) _ b1 hd
        hsv (by omega)
      obtain ⟨hlen, hframe⟩ := setFieldsU_frame rest (start + len) b1 pos
        pairs b' hrest h (by rw [hlen1]; omega)
      refine ⟨hlen.trans hlen1, ?_⟩
      intro j hj
      rw [hframe j (by omega)]
      exact hframe1 j (by omega)
end

theorem lookupVal_cons_ne {key name : String} {v : Value}
    {prest : List (String × Value)} (h : ¬ key = name) :
    lookupVal ((key, v) :: prest) name = lookupVal prest name := by
  simp [lookupVal, h]

theorem lookupAll_cons_skip :
    ∀ (fs : RFields) {key : String} {v : Value}
      {prest : List (String × Value)},
      (namesList fs).contains key = false →
      lookupAll fs ((key, v) :: prest) = lookupAll fs prest
  | .nil, key, v, prest => by
    intro _
    rfl
  | .cons name start len d rest, key, v, prest => by
    intro hc
    simp only [namesList, List.contains_cons, Bool.or_eq_false_iff,
      beq_eq_false_iff_ne, ne_eq] at hc
    unfold lookupAll
    rw [lookupVal_cons_ne (by intro he; exact hc.1 he),
      lookupAll_cons_skip rest (by simpa using hc.2)]

/-- A value tree that `matchesPairs` a resolved schema supplies exactly
the schema's fields, in order. -/
theorem matchesPairs_lookupAll :
    ∀ (fs : RFields) (o : Nat) (pairs : List (String × Value)),
      fieldsOkFrom fs o = true → matchesPairs fs pairs = true →
      lookupAll fs pairs = some pairs
  | .nil, o, pairs => by
    intro _ hm
    simp only [matchesPairs, List.isEmpty_iff] at hm
    subst hm
    rfl
  | .cons name start len d rest, o, pairs => by
    intro hf hm
    simp only [fieldsOkFrom, Bool.and_eq_true, beq_iff_eq,
      Bool.not_eq_true'] at hf
    obtain ⟨⟨⟨hstart, hd⟩, hnm⟩, hrest⟩ := hf
    cases pairs with
    | nil => simp [matchesPairs] at hm
    | cons hd0 prest =>
      obtain ⟨pname, pv⟩ := hd0
      simp only [matchesPairs, Bool.and_eq_true, beq_iff_eq] at hm
      obtain ⟨⟨hpn, hmv⟩, hmp⟩ := hm
      subst hpn
      unfold lookupAll
      rw [show ∀ s : String, lookupVal ((s, pv) :: prest) s = some pv
        from fun s => by simp [lookupVal]]
      have hskip : lookupAll rest ((pname, pv) :: prest) = some prest := by
        rw [lookupAll_cons_skip rest hnm,
          matchesPairs_lookupAll rest (o + len) prest hrest hmp]
      show (if matchesV d pv = true then
          match lookupAll rest ((pname, pv) :: prest) with
          | none => none
          | some tailp => some ((pname, pv) :: tailp)
        else none) = some ((pname, pv) :: prest)
      rw [if_pos hmv, hskip]

/-! ## The master write-then-read correctness -/
theorem setStringAt_ok {b : Buffer} {pos len : Nat} {cps : List Nat}
    (hb : pos + len ≤ b.length) (hfit : utf8Len cps ≤ len) :
    ∃ b', setStringAt b pos len cps = .ok b'
      ∧ b'.length = b.length
      ∧ (∀ j, (j < pos ∨ pos + len ≤ j) → b'[j]? = b[j]?)
      ∧ readBytes b' pos len
          = utf8Encode cps ++ List.replicate (len - utf8Len cps) 0 := by
  have hsrc : (svFromString cps).length = utf8Len cps := rfl
  have hnlt : ¬ len < (svFromString cps).length := by rw [hsrc]; omega
  have hok : setStringAt b pos len cps
      = .ok (writeBytes (writeBytes b pos (List.replicate len 0)) pos
          (svFromString cps)) := by
    unfold setStringAt
    rw [if_neg hnlt]
  refine ⟨_, hok, (setStringAt_frame hok hb).1, (setStringAt_frame hok hb).2,
    ?_⟩
  have hb0 : pos + (List.replicate len (0 : Nat)).length ≤ b.length := by
    rw [List.length_replicate]; exact hb
  have hlen1 : (writeBytes b pos (List.replicate len 0)).length = b.length :=
    writeBytes_length hb0
  have hbsrc : pos + (svFromString cps).length
      ≤ (writeBytes b pos (List.replicate len 0)).length := by
    rw [hlen1, hsrc]; omega
  have hsplit : len = utf8Len cps + (len - utf8Len cps) := by omega
  set bx := writeBytes (writeBytes b pos (List.replicate len 0)) pos
    (svFromString cps) with hbx
  nth_rewrite 1 [hsplit]
  rw [readBytes_split]
  congr 1
  · have hx := readBytes_writeBytes_self hbsrc
    rw [hsrc] at hx
    rw [← hbx] at hx
    exact hx
  · have hag : agreeOn bx (writeBytes b pos (List.replicate len 0))
        (pos + utf8Len cps) (len - utf8Len cps) := by
      rw [hbx]
      apply agreeOn_writeBytes_outside hbsrc
      right
      rw [hsrc]
    rw [readBytes_eq_of_agreeOn hag]
    have hwithin := @readBytes_writeBytes_within _ _ _ hb0
      (utf8Len cps) (len - utf8Len cps)
      (by rw [List.length_replicate]; omega)
    rw [hwithin, List.drop_replicate, List.take_replicate]
    congr 1
    omega

mutual
theorem setVal_ok :
    ∀ (d : RDesc) (len : Nat) (b : Buffer) (pos : Nat) (v : Value),
      descOk d len = true → matchesV d v = true → pos + len ≤ b.length →
      ∃ b', setVal d b pos v = .ok b'
        ∧ b'.length = b.length
        ∧ (∀ j, (j < pos ∨ pos + len ≤ j) → b'[j]? = b[j]?)
        ∧ getVal d b' pos = v
  | .prim k le, len, b, pos, v => by
    intro hd hm hb
    simp only [descOk, beq_iff_eq] at hd
    subst hd
    simp only [matchesV] at hm
    obtain ⟨n, hc, hr, hpv⟩ := coerceNum_of_numOk hm
    refine ⟨setPrimAt k le b pos n, by simp [setVal, hc],
      setPrimAt_length hb, fun j hj => setPrimAt_frame hb hj, ?_⟩
    unfold getVal
    rw [setPrim_readback hb hr, hpv]
  | .tarr k le size, len, b, pos, v => by
    intro hd hm hb
    simp only [descOk, beq_iff_eq] at hd
    subst hd
    cases v with
    | undef => simp [matchesV] at hm
    | num n0 => simp [matchesV] at hm
    | big n0 => simp [matchesV] at hm
    | str s0 => simp [matchesV] at hm
    | obj ps0 => simp [matchesV] at hm
    | arr vs =>
      simp only [matchesV, Bool.and_eq_true, decide_eq_true_eq] at hm
      obtain ⟨hlenv, hall⟩ := hm
      have htake : (asArr (Value.arr vs)).take size = vs := by
        show vs.take size = vs
        exact List.take_of_length_le (by omega)
      obtain ⟨b', hw, hlen, hframe, hread⟩ := writePrims_ok k le vs b pos
        hall (by rw [hlenv]; exact hb)
      refine ⟨b', ?_, hlen, ?_, ?_⟩
      · simp only [setVal]
        rw [htake]
        exact hw
      · intro j hj
        exact hframe j (by rw [hlenv]; exact hj)
      · unfold getVal
        rw [hlenv] at hread
        rw [hread]
  | .strD sL, len, b, pos, v => by
    intro hd hm hb
    simp only [descOk, beq_iff_eq] at hd
    subst hd
    obtain ⟨cps, hv, hval, hnz, hfit⟩ := strOk_shape hm
    subst hv
    obtain ⟨b', hok, hlen, hframe, hread⟩ := setStringAt_ok hb hfit
    refine ⟨b', ?_, hlen, hframe, ?_⟩
    · simp only [setVal]
      exact hok
    · unfold getVal
      rw [hread]
      rw [svToString_encode_pad hval hnz]
  | .sarr size sl, len, b, pos, v => by
    intro hd hm hb
    simp only [descOk, beq_iff_eq] at hd
    subst hd
    cases v with
    | undef => simp [matchesV] at hm
    | num n0 => simp [matchesV] at hm
    | big n0 => simp [matchesV] at hm
    | str s0 => simp [matchesV] at hm
    | obj ps0 => simp [matchesV] at hm
    | arr vs =>
      simp only [matchesV, Bool.and_eq_true, decide_eq_true_eq] at hm
      obtain ⟨hlenv, hall⟩ := hm
      have htake : (asArr (Value.arr vs)).take size = vs := by
        show vs.take size = vs
        exact List.take_of_length_le (by omega)
      have hb0 : pos + (List.replicate (size * sl) (0 : Nat)).length
          ≤ b.length := by
        rw [List.length_replicate]; exact hb
      have hlen0 := writeBytes_length hb0
      obtain ⟨hlen1, hframe1, hread1⟩ := writeStrSlots_ok sl vs
        (writeBytes b pos (List.replicate (size * sl) 0)) pos hall
        (by rw [hlen0, hlenv]; exact hb)
      refine ⟨_, ?_, hlen1.trans hlen0, ?_, ?_⟩
      · simp only [setVal, setStringArrayAt]
        rw [htake]
      · intro j hj
        rw [hframe1 j (by rw [hlenv]; omega)]
        rcases hj with hj | hj
        · exact getElem?_writeBytes_lt hb0 hj
        · exact getElem?_writeBytes_ge hb0
            (by rw [List.length_replicate]; omega)
      · unfold getVal
        rw [hlenv] at hread1
        rw [hread1]
  | .objD sub olen, len, b, pos, v => by
    intro hd hm hb
    simp only [descOk, Bool.and_eq_true, beq_iff_eq] at hd
    obtain ⟨⟨h1, h2⟩, h3⟩ := hd
    cases v with
    | undef => simp [matchesV] at hm
    | num n0 => simp [matchesV] at hm
    | big n0 => simp [matchesV] at hm
    | str s0 => simp [matchesV] at hm
    | arr vs0 => simp [matchesV] at hm
    | obj ps =>
      simp only [matchesV] at hm
      have hlk := matchesPairs_lookupAll sub 0 ps h3 hm
      obtain ⟨b', hw, hlen, hframe, hread⟩ := setFields_ok sub 0 b pos ps ps
        h3 hlk (by omega)
      refine ⟨b', ?_, hlen, ?_, ?_⟩
      · simp only [setVal]
        exact hw
      · intro j hj
        rw [Nat.add_zero] at hframe
        exact hframe j (by omega)
      · unfold getVal
        rw [hread]
  | .arrD sub olen size, len, b, pos, v => by
    intro hd hm hb
    simp only [descOk, Bool.and_eq_true, beq_iff_eq] at hd
    obtain ⟨⟨h1, h2⟩, h3⟩ := hd
    cases v with
    | undef => simp [matchesV] at hm
    | num n0 => simp [matchesV] at hm
    | big n0 => simp [matchesV] at hm
    | str s0 => simp [matchesV] at hm
    | obj ps0 => simp [matchesV] at hm
    | arr vs =>
      simp only [matchesV, Bool.and_eq_true, decide_eq_true_eq] at hm
      obtain ⟨hlenv, hall⟩ := hm
      have htake : (asArr (Value.arr vs)).take size = vs := by
        show vs.take size = vs
        exact List.take_of_length_le (by omega)
      obtain ⟨b', hw, hlen, hframe, hread⟩ := writeSlots_ok
        (fun bb p el => setFieldsU sub bb p (asObj el))
        (fun bb p => .obj (getFields sub bb p)) olen
        (fun el => match el with
          | .obj pairs => matchesPairs sub pairs
          | _ => false)
        (fun bb pp el hP hbb => by
          cases el with
          | undef => simp at hP
          | num n0 => simp at hP
          | big n0 => simp at hP
          | str s0 => simp at hP
          | arr vs0 => simp at hP
          | obj ep =>
            have hlk := matchesPairs_lookupAll sub 0 ep h3 (by simpa using hP)
            obtain ⟨bb2, hw2, hlen2, hframe2, hread2⟩ :=
              setFieldsU_ok sub 0 bb pp ep ep h3 hlk (by omega)
            refine ⟨bb2, hw2, hlen2, ?_, ?_⟩
            · intro j hj
              rw [Nat.add_zero] at hframe2
              exact hframe2 j (by omega)
            · show Value.obj (getFields sub bb2 pp) = Value.obj ep
              rw [hread2])
        (fun bb bb2 p hag => by
          show Value.obj (getFields sub bb p) = Value.obj (getFields sub bb2 p)
          rw [getFields_congr sub 0 bb bb2 p h3
            (by rw [Nat.add_zero, ← h2]; exact hag)])
        vs b pos hall (by rw [hlenv]; omega)
      refine ⟨b', ?_, hlen, ?_, ?_⟩
      · simp only [setVal]
        rw [htake]
        exact hw
      · intro j hj
        exact hframe j (by rw [hlenv]; omega)
      · unfold getVal
        rw [hlenv] at hread
        rw [hread]

theorem setFields_ok :
    ∀ (fs : RFields) (o : Nat) (b : Buffer) (pos : Nat)
      (pairs rhs : List (String × Value)),
      fieldsOkFrom fs o = true → lookupAll fs pairs = some rhs →
      pos + o + sumLen fs ≤ b.length →
      ∃ b', setFields fs b pos pairs = .ok b'
        ∧ b'.length = b.length
        ∧ (∀ j, (j < pos + o ∨ pos + o + sumLen fs ≤ j) → b'[j]? = b[j]?)
        ∧ getFields fs b' pos = rhs
  | .nil, o, b, pos, pairs, rhs => by
    intro _ hlk _
    simp only [lookupAll, Option.some.injEq] at hlk
    subst hlk
    exact ⟨b, rfl, rfl, fun j _ => rfl, rfl⟩
  | .cons name start len d rest, o, b, pos, pairs, rhs => by
    intro hf hlk hb
    simp only [fieldsOkFrom, Bool.and_eq_true, beq_iff_eq,
      Bool.not_eq_true'] at hf
    obtain ⟨⟨⟨hstart, hd⟩, hnm⟩, hrest⟩ := hf
    subst hstart
    simp only [sumLen] at hb ⊢
    rcases hlkv : lookupVal pairs name with _ | v
    · simp [lookupAll, hlkv] at hlk
    · rcases hmv : matchesV d v with _ | _
      · simp [lookupAll, hlkv, hmv] at hlk
      · rcases hrec : lookupAll rest pairs with _ | tailp
        · simp [lookupAll, hlkv, hmv, hrec] at hlk
        · simp only [lookupAll, hlkv, hmv, hrec, if_true,
            Option.some.injEq] at hlk
          subst hlk
          obtain ⟨b1, hw1, hlen1, hframe1, hread1⟩ := setVal_ok d len b
            (pos + start) v hd hmv (by omega)
          obtain ⟨b', hw, hlen, hframe, hread⟩ := setFields_ok rest
            (start + len) b1 pos pairs tailp hrest hrec
            (by rw [hlen1]; omega)
          refine ⟨b', ?_, hlen.trans hlen1, ?_, ?_⟩
          · simp only [setFields, hlkv, hw1]
            exact hw
          · intro j hj
            rw [hframe j (by omega)]
            exact hframe1 j (by omega)
          · unfold getFields
            rw [hread]
            have hag : agreeOn b' b1 (pos + start) len :=
              fun j hj => hframe (pos + start + j) (Or.inl (by omega))
            rw [getVal_congr d len b' b1 (pos + start) hd hag, hread1]

theorem setFieldsU_ok :
    ∀ (fs : RFields) (o : Nat) (b : Buffer) (pos : Nat)
      (pairs rhs : List (String × Value)),
      fieldsOkFrom fs o = true → lookupAll fs pairs = some rhs →
      pos + o + sumLen fs ≤ b.length →
      ∃ b', setFieldsU fs b pos pairs = .ok b'
        ∧ b'.length = b.length
        ∧ (∀ j, (j < pos + o ∨ pos + o + sumLen fs ≤ j) → b'[j]? = b[j]?)
        ∧ getFields fs b' pos = rhs
  | .nil, o, b, pos, pairs, rhs => by
    intro _ hlk _
    simp only [lookupAll, Option.some.injEq] at hlk
    subst hlk
    exact ⟨b, rfl, rfl, fun j _ => rfl, rfl⟩
  | .cons name start len d rest, o, b, pos, pairs, rhs => by
    intro hf hlk hb
    simp only [fieldsOkFrom, Bool.and_eq_true, beq_iff_eq,
      Bool.not_eq_true'] at hf
    obtain ⟨⟨⟨hstart, hd⟩, hnm⟩, hrest⟩ := hf
    subst hstart
    simp only [sumLen] at hb ⊢
    rcases hlkv : lookupVal pairs name with _ | v
    · simp [lookupAll, hlkv] at hlk
    · rcases hmv : matchesV d v with _ | _
      · simp [lookupAll, hlkv, hmv] at hlk
      · rcases hrec : lookupAll rest pairs with _ | tailp
        · simp [lookupAll, hlkv, hmv, hrec] at hlk
        · simp only [lookupAll, hlkv, hmv, hrec, if_true,
            Option.some.injEq] at hlk
          subst hlk
          obtain ⟨b1, hw1, hlen1, hframe1, hread1⟩ := setVal_ok d len b
            (pos + start) v hd hmv (by omega)
          obtain ⟨b', hw, hlen, hframe, hread⟩ := setFieldsU_ok rest
            (start + len) b1 pos pairs tailp hrest hrec
            (by rw [hlen1]; omega)
          refine ⟨b', ?_, hlen.trans hlen1, ?_, ?_⟩
          · simp only [setFieldsU, hlkv, Option.getD_some, hw1]
            exact hw
          · intro j hj
            rw [hframe j (by omega)]
            exact hframe1 j (by omega)
          · unfold getFields
            rw [hread]
            have hag : agreeOn b' b1 (pos + start) len :=
              fun j hj => hframe (pos + start + j) (Or.inl (by omega))
            rw [getVal_congr d len b' b1 (pos + start) hd hag, hread1]
end

/-- A located field of a well-laid-out schema has a resolved descriptor
and its byte window lies inside the schema's span. -/
theorem FieldAt_spec {fs : RFields} {name : String} {s l : Nat} {d : RDesc}
    (h : FieldAt fs name s l d) :
    ∀ (o : Nat), fieldsOkFrom fs o = true →
      descOk d l = true ∧ o ≤ s ∧ s + l ≤ o + sumLen fs := by
  induction h with
  | head name s l d rest =>
    intro o hf
    simp only [fieldsOkFrom, Bool.and_eq_true, beq_iff_eq,
      Bool.not_eq_true'] at hf
    obtain ⟨⟨⟨hstart, hd⟩, hnm⟩, hrest⟩ := hf
    subst hstart
    simp only [sumLen]
    exact ⟨hd, Nat.le_refl _, by omega⟩
  | tail name' s' l' d' h hne ih =>
    intro o hf
    simp only [fieldsOkFrom, Bool.and_eq_true, beq_iff_eq,
      Bool.not_eq_true'] at hf
    obtain ⟨⟨⟨hstart, hd⟩, hnm⟩, hrest⟩ := hf
    subst hstart
    obtain ⟨h1, h2, h3⟩ := ih (s' + l') hrest
    simp only [sumLen]
    exact ⟨h1, by omega, by omega⟩

/-- `setObject` leaves the byte window of a field absent from the source
object untouched. -/
theorem setFields_absent {fs : RFields} {gname : String} {gs gl : Nat}
    {gd : RDesc} (hat : FieldAt fs gname gs gl gd) :
    ∀ (o : Nat) (b : Buffer) (pos : Nat) (pairs : List (String × Value))
      (b' : Buffer),
      fieldsOkFrom fs o = true →
      lookupVal pairs gname = none →
      setFields fs b pos pairs = .ok b' →
      pos + o + sumLen fs ≤ b.length →
      ∀ j, pos + gs ≤ j → j < pos + gs + gl → b'[j]? = b[j]? := by
  induction hat with
  | head name s l d rest =>
    intro o b pos pairs b' hf hlkn h hb j hj1 hj2
    simp only [fieldsOkFrom, Bool.and_eq_true, beq_iff_eq,
      Bool.not_eq_true'] at hf
    obtain ⟨⟨⟨hstart, hd⟩, hnm⟩, hrest⟩ := hf
    subst hstart
    simp only [sumLen] at hb
    simp only [setFields, hlkn] at h
    obtain ⟨hlen, hframe⟩ := setFields_frame rest (s + l) b pos pairs
      b' hrest h (by omega)
    exact hframe j (by omega)
  | tail name' s' l' d' hat' hne ih =>
    intro o b pos pairs b' hf hlkn h hb j hj1 hj2
    simp only [fieldsOkFrom, Bool.and_eq_true, beq_iff_eq,
      Bool.not_eq_true'] at hf
    obtain ⟨⟨⟨hstart, hd⟩, hnm⟩, hrest⟩ := hf
    subst hstart
    simp only [sumLen] at hb
    obtain ⟨hd', hlo, hhi⟩ := FieldAt_spec hat' (s' + l') hrest
    rcases hlkv : lookupVal pairs name' with _ | v
    · simp only [setFields, hlkv] at h
      exact ih (s' + l') b pos pairs b' hrest hlkn h (by omega) j hj1 hj2
    · rcases hsv : setVal d' b (pos + s') v with e | b1
      · simp only [setFields, hlkv, hsv] at h
        exact (Except.noConfusion h)
      · simp only [setFields, hlkv, hsv] at h
        obtain ⟨hlen1, hframe1⟩ := setVal_frame d' l' b (pos + s') v b1
          hd hsv (by omega)
        rw [ih (s' + l') b1 pos pairs b' hrest hlkn h
          (by rw [hlen1]; omega) j hj1 hj2]
        exact hframe1 j (by omega)

/-- `setObject` writes a present, matching field: reading that field from
the result returns the supplied value. -/
theorem setFields_present {fs : RFields} {gname : String} {gs gl : Nat}
    {gd : RDesc} (hat : FieldAt fs gname gs gl gd) :
    ∀ (o : Nat) (b : Buffer) (pos : Nat) (pairs : List (String × Value))
      (b' : Buffer) (gv : Value),
      fieldsOkFrom fs o = true →
      lookupVal pairs gname = some gv →
      matchesV gd gv = true →
      setFields fs b pos pairs = .ok b' →
      pos + o + sumLen fs ≤ b.length →
      getVal gd b' (pos + gs) = gv := by
  induction hat with
  | head name s l d rest =>
    intro o b pos pairs b' gv hf hlkv hmv h hb
    simp only [fieldsOkFrom, Bool.and_eq_true, beq_iff_eq,
      Bool.not_eq_true'] at hf
    obtain ⟨⟨⟨hstart, hd⟩, hnm⟩, hrest⟩ := hf
    subst hstart
    simp only [sumLen] at hb
    rcases hsv : setVal d b (pos + s) gv with e | b1
    · simp only [setFields, hlkv, hsv] at h
      exact (Except.noConfusion h)
    · simp only [setFields, hlkv, hsv] at h
      obtain ⟨b1', hw1, hlen1, hframe1, hread1⟩ := setVal_ok d l b
        (pos + s) gv hd hmv (by omega)
      rw [hw1] at hsv
      injection hsv with hsv
      subst hsv
      obtain ⟨hlen, hframe⟩ := setFields_frame rest (s + l) b1' pos
        pairs b' hrest h (by rw [hlen1]; omega)
      have hag : agreeOn b' b1' (pos + s) l :=
        fun j hj => hframe (pos + s + j) (Or.inl (by omega))
      rw [getVal_congr d l b' b1' (pos + s) hd hag]
      exact hread1
  | tail name' s' l' d' hat' hne ih =>
    intro o b pos pairs b' gv hf hlkv hmv h hb
    simp only [fieldsOkFrom, Bool.and_eq_true, beq_iff_eq,
      Bool.not_eq_true'] at hf
    obtain ⟨⟨⟨hstart, hd⟩, hnm⟩, hrest⟩ := hf
    subst hstart
    simp only [sumLen] at hb
    obtain ⟨hd', hlo, hhi⟩ := FieldAt_spec hat' (s' + l') hrest
    rcases hlk0 : lookupVal pairs name' with _ | v0
    · simp only [setFields, hlk0] at h
      exact ih (s' + l') b pos pairs b' gv hrest hlkv hmv h (by omega)
    · rcases hsv : setVal d' b (pos + s') v0 with e | b1
      · simp only [setFields, hlk0, hsv] at h
        exact (Except.noConfusion h)
      · simp only [setFields, hlk0, hsv] at h
        obtain ⟨hlen1, hframe1⟩ := setVal_frame d' l' b (pos + s') v0 b1
          hd hsv (by omega)
        exact ih (s' + l') b1 pos pairs b' gv hrest hlkv hmv h
          (by rw [hlen1]; omega)

/-- The inner loop of `setArray` writes *every* element-schema field; a
field absent from the source element is written with the coercion of
`undefined`, i.e. `0` for a (non-bigint) integer field — even over
nonzero prior bytes. -/
theorem setFieldsU_missing_prim {fs : RFields} {gname : String}
    {gs gl : Nat} {k : PrimKind} {le : Bool}
    (hat : FieldAt fs gname gs gl (.prim k le)) :
    ∀ (o : Nat) (b : Buffer) (pos : Nat) (pairs : List (String × Value))
      (b' : Buffer),
      fieldsOkFrom fs o = true →
      lookupVal pairs gname = none →
      kindBig k = false →
      setFieldsU fs b pos pairs = .ok b' →
      pos + o + sumLen fs ≤ b.length →
      getPrimAt k le b' (pos + gs) = 0 := by
  generalize hgd : RDesc.prim k le = gd at hat
  induction hat with
  | head name s l d rest =>
    intro o b pos pairs b' hf hlkn hnb h hb
    subst hgd
    simp only [fieldsOkFrom, Bool.and_eq_true, beq_iff_eq,
      Bool.not_eq_true'] at hf
    obtain ⟨⟨⟨hstart, hd⟩, hnm⟩, hrest⟩ := hf
    subst hstart
    simp only [sumLen] at hb
    simp only [descOk, beq_iff_eq] at hd
    subst hd
    have hcu : coerceNum k Value.undef = .ok 0 := by
      simp [coerceNum, hnb]
    have hsv : setVal (.prim k le) b (pos + s)
        ((lookupVal pairs name).getD .undef)
        = .ok (setPrimAt k le b (pos + s) 0) := by
      rw [hlkn]
      simp [setVal, hcu]
    simp only [setFieldsU, hsv] at h
    obtain ⟨hlen, hframe⟩ := setFieldsU_frame rest (s + kindWidth k)
      (setPrimAt k le b (pos + s) 0) pos pairs b' hrest h
      (by rw [setPrimAt_length (by omega)]; omega)
    have hag : agreeOn b' (setPrimAt k le b (pos + s) 0) (pos + s)
        (kindWidth k) :=
      fun j hj => hframe (pos + s + j) (Or.inl (by omega))
    rw [getPrimAt_congr hag]
    exact setPrim_readback (by omega) (inRange_zero k)
  | tail name' s' l' d' hat' hne ih =>
    intro o b pos pairs b' hf hlkn hnb h hb
    simp only [fieldsOkFrom, Bool.and_eq_true, beq_iff_eq,
      Bool.not_eq_true'] at hf
    obtain ⟨⟨⟨hstart, hd⟩, hnm⟩, hrest⟩ := hf
    subst hstart
    simp only [sumLen] at hb
    obtain ⟨hd', hlo, hhi⟩ := FieldAt_spec hat' (s' + l') hrest
    rcases hsv : setVal d' b (pos + s')
        ((lookupVal pairs name').getD .undef) with e | b1
    · simp only [setFieldsU, hsv] at h
      exact (Except.noConfusion h)
    · simp only [setFieldsU, hsv] at h
      obtain ⟨hlen1, hframe1⟩ := setVal_frame d' l' b (pos + s') _ b1
        hd hsv (by omega)
      exact ih hgd (s' + l') b1 pos pairs b' hrest hlkn hnb h
        (by rw [hlen1]; omega)

/-- `getObject` decodes a located field at its byte window. -/
theorem getFields_lookup :
    ∀ {fs : RFields} {gname : String} {gs gl : Nat} {gd : RDesc},
      FieldAt fs gname gs gl gd →
      ∀ (b : Buffer) (pos : Nat),
      lookupVal (getFields fs b pos) gname = some (getVal gd b (pos + gs)) := by
  intro fs gname gs gl gd h
  induction h with
  | head name s l d rest =>
    intro b pos
    simp [getFields, lookupVal]
  | tail name' s' l' d' h hne ih =>
    rename_i rest0 gname0 gs0 gl0 gd0
    intro b pos
    unfold getFields
    have hcond : ¬ name' = gname0 := fun he => hne he.symm
    rw [lookupVal, if_neg hcond]
    exact ih b pos

/-- `get` on a composite field returns a live view: the window
`(byteOffset + start, length)` over the same buffer, never a copy. -/
theorem getField_composite_view :
    ∀ {fs : RFields} {gname : String} {gs gl : Nat} {gd : RDesc},
      FieldAt fs gname gs gl gd →
      (∀ k le, gd ≠ .prim k le) →
      ∀ (b : Buffer) (selfOff : Nat),
      getField fs b selfOff gname = some (.view (selfOff + gs) gl) := by
  intro fs gname gs gl gd h
  induction h with
  | head name s l d rest =>
    intro hnp b selfOff
    unfold getField
    rw [if_pos rfl]
    cases d with
    | prim k le => exact absurd rfl (hnp k le)
    | tarr k le size => rfl
    | strD sL => rfl
    | sarr size sl => rfl
    | objD sub olen => rfl
    | arrD sub olen size => rfl
  | tail name' s' l' d' h hne ih =>
    rename_i rest0 gname0 gs0 gl0 gd0
    intro hnp b selfOff
    unfold getField
    have hcond : ¬ name' = gname0 := fun he => hne he.symm
    rw [if_neg hcond]
    exact ih hnp b selfOff

/-! ## Claim C1: encode/decode round trip -/
/-- **C1.**  For every resolved struct type and every value tree `pairs`
that matches its schema within the declared bounds and lengths, decoding
an encoding recovers the value tree — `toObject(from(v)) = v` — and
re-encoding the decoded tree produces byte-identical output:
`from(toObject(from(v)))` is the very same buffer.  (Float fields are
outside this integer embedding; string values are zero-free valid
scalars whose encoding fits the declared byte length, and arrays supply
exactly the declared number of elements, as `matchesPairs` requires — a
shorter or longer source would be zero-padded/truncated by `from` and
hence not round-trip as stated.) -/
theorem c1_roundtrip (fs : RFields) (pairs : List (String × Value))
    (hok : fieldsOk fs = true) (hm : matchesPairs fs pairs = true) :
    ∃ b', fromValue fs pairs = .ok b'
      ∧ toObjectValue fs b' = pairs
      ∧ fromValue fs (toObjectValue fs b') = .ok b' := by
  unfold fieldsOk at hok
  have hlk := matchesPairs_lookupAll fs 0 pairs hok hm
  obtain ⟨b', hw, hlen, hframe, hread⟩ := setFields_ok fs 0
    (List.replicate (sumLen fs) 0) 0 pairs pairs hok hlk (by simp)
  have hto : toObjectValue fs b' = pairs := hread
  refine ⟨b', hw, hto, ?_⟩
  rw [hto]
  exact hw

/-- Witness for C1: a seven-field struct exercising every embedded field
kind (scalars of both endiannesses, string, typed array, nested struct,
struct array, string array, bigint). -/
theorem c1_witness :
    ∃ b', fromValue exSchemaC1 exPairsC1 = .ok b'
      ∧ toObjectValue exSchemaC1 b' = exPairsC1
      ∧ fromValue exSchemaC1 (toObjectValue exSchemaC1 b') = .ok b' :=
  c1_roundtrip exSchemaC1 exPairsC1 (by rfl) (by rfl)

/-! ## Claim C3: `setString` raises instead of truncating -/
/-- **C3** (the code contradicts the claim).  `setString` zero-fills the
destination and then runs
`new Uint8Array(buffer, off, length).fill(0).set(StringView.fromString(value))` —
calling `fromString` *without* the length, so the full UTF-8 encoding is
produced and `TypedArray#set` throws a `RangeError` whenever it exceeds
the declared byte length, instead of truncating at a code-point boundary.
First conjunct: the failing input — a 2-byte string into a 1-byte field
raises.  Second conjunct: when the encoding fits, the region is
zero-filled and then overwritten, as the claim describes. -/
theorem c3_setString_overflow_raises :
    setVal (.strD 1) [0] 0 (.str [97, 98]) = .error "RangeError"
      ∧ setVal (.strD 4) [7, 7, 7, 7] 0 (.str [104, 105])
        = .ok [104, 105, 0, 0] :=
  ⟨rfl, rfl⟩

/-! ## Claim C6: composite fields are returned as live views -/
/-- **C6.**  `get` on a composite field (here: a nested object) returns a
view over the *same* buffer at offset `this.byteOffset + field.start` and
length `field.length` — not a copy.  Consequently a write performed
through that window (a `DataView` store at the nested field's position)
is immediately visible when the owning view re-reads the field: after
`setPrimAt` at the aliased position, re-decoding the nested struct shows
the new value. -/
theorem c6_views_are_live
    (fs sub : RFields) (olen : Nat) (fname gname : String)
    (fstart flen gs gl : Nat) (k : PrimKind) (le : Bool)
    (b : Buffer) (selfOff : Nat) (n : Int)
    (hatf : FieldAt fs fname fstart flen (.objD sub olen))
    (hatg : FieldAt sub gname gs gl (.prim k le))
    (hb : selfOff + fstart + gs + kindWidth k ≤ b.length)
    (hr : inRange k n = true) :
    getField fs b selfOff fname = some (.view (selfOff + fstart) flen)
      ∧ lookupVal
          (getFields sub (setPrimAt k le b (selfOff + fstart + gs) n)
            (selfOff + fstart)) gname
        = some (primValue k n) := by
  refine ⟨getField_composite_view hatf (fun k0 le0 h => by cases h) b selfOff,
    ?_⟩
  rw [getFields_lookup hatg]
  have hrb := @setPrim_readback k le b (selfOff + fstart + gs) n hb hr
  simp only [getVal]
  rw [hrb]

/-- Witness for C6: a one-field nested struct over the buffer `[170]`;
writing `9` through the returned window is seen by the next read. -/
theorem c6_witness :
    getField c6Fields [170] 0 "c" = some (.view (0 + 0) 1)
      ∧ lookupVal
          (getFields c6Sub (setPrimAt .u8 false [170] (0 + 0 + 0) 9) (0 + 0))
          "n"
        = some (primValue .u8 9) :=
  c6_views_are_live c6Fields c6Sub 1 "c" "n" 0 1 0 1 .u8 false [170] 0 9
    (FieldAt.head "c" 0 1 (.objD c6Sub 1) .nil)
    (FieldAt.head "n" 0 1 (.prim .u8 false) .nil)
    (by decide) (by rfl)

/-! ## Claim C7: `setObject` merges, skipping absent fields -/
/-- **C7.**  Setting a nested-object field with a partial source merges:
for each schema field of the nested type, if the source object lacks the
key (`Reflect.has` is false) the field's bytes are left untouched; if it
has the key (with a matching value) the field is written and reads back
as that value. -/
theorem c7_setObject_merges
    (sub : RFields) (olen : Nat) (b : Buffer) (pos : Nat)
    (pairs : List (String × Value)) (b' : Buffer)
    (gname : String) (gs gl : Nat) (gd : RDesc)
    (hok : fieldsOkFrom sub 0 = true)
    (hat : FieldAt sub gname gs gl gd)
    (hset : setVal (.objD sub olen) b pos (.obj pairs) = .ok b')
    (hb : pos + sumLen sub ≤ b.length) :
    (lookupVal pairs gname = none →
      ∀ j, pos + gs ≤ j → j < pos + gs + gl → b'[j]? = b[j]?)
      ∧ (∀ gv, lookupVal pairs gname = some gv → matchesV gd gv = true →
          getVal gd b' (pos + gs) = gv) := by
  have hset' : setFields sub b pos pairs = .ok b' := by
    simpa only [setVal, asObj] using hset
  constructor
  · intro hlkn j hj1 hj2
    exact setFields_absent hat 0 b pos pairs b' hok hlkn hset' (by omega)
      j hj1 hj2
  · intro gv hlkv hmv
    exact setFields_present hat 0 b pos pairs b' gv hok hlkv hmv hset'
      (by omega)

/-- Witness for C7: writing `{b: 9}` into a two-field struct over
`[5, 6]` leaves the absent field `a`'s byte alone. -/
theorem c7_witness :
    (lookupVal [("b", Value.num 9)] "a" = none →
      ∀ j, 0 + 0 ≤ j → j < 0 + 0 + 1 →
        ([5, 9] : Buffer)[j]? = ([5, 6] : Buffer)[j]?)
      ∧ (∀ gv, lookupVal [("b", Value.num 9)] "a" = some gv →
          matchesV (.prim .u8 false) gv = true →
          getVal (.prim .u8 false) [5, 9] (0 + 0) = gv) :=
  c7_setObject_merges c7Sub 2 [5, 6] 0 [("b", Value.num 9)] [5, 9]
    "a" 0 1 (.prim .u8 false) (by rfl)
    (FieldAt.head "a" 0 1 (.prim .u8 false)
      (.cons "b" 1 1 (.prim .u8 false) .nil))
    (by rfl) (by decide)

/-! ## Claim C9: `setArray` writes every element field, unlike `setObject` -/
/-- **C9.**  The element loop of `setArray` performs no presence check:
a numeric field missing from the source element is still written, with
`value[i][name]` being `undefined`, which the `DataView` setter coerces
to `0` — so after `setArray` the missing field's bytes read back as `0`.
`setObject` on the same partial source instead leaves those bytes
untouched. -/
theorem c9_setArray_zeroes_missing_fields
    (sub : RFields) (gname : String) (gs gl : Nat) (k : PrimKind) (le : Bool)
    (olen size : Nat) (ep : List (String × Value))
    (b b1 b2 : Buffer) (pos : Nat)
    (hok : fieldsOkFrom sub 0 = true)
    (hat : FieldAt sub gname gs gl (.prim k le))
    (hnb : kindBig k = false)
    (hlkn : lookupVal ep gname = none)
    (hsz : 1 ≤ size)
    (hU : setVal (.arrD sub olen size) b pos (.arr [.obj ep]) = .ok b1)
    (hO : setVal (.objD sub olen) b pos (.obj ep) = .ok b2)
    (hb : pos + sumLen sub ≤ b.length) :
    getPrimAt k le b1 (pos + gs) = 0
      ∧ ∀ j, pos + gs ≤ j → j < pos + gs + gl → b2[j]? = b[j]? := by
  constructor
  · obtain ⟨size0, rfl⟩ : ∃ s0, size = s0 + 1 := ⟨size - 1, by omega⟩
    simp only [setVal, asArr, List.take_succ_cons, List.take_nil] at hU
    cases hsf : setFieldsU sub b pos ep with
    | error e =>
      simp only [writeSlots, asObj, hsf] at hU
      exact (Except.noConfusion hU)
    | ok bb =>
      simp only [writeSlots, asObj, hsf] at hU
      injection hU with hU
      subst hU
      exact setFieldsU_missing_prim hat 0 b pos ep bb hok hlkn hnb hsf
        (by omega)
  · intro j hj1 hj2
    have hO' : setFields sub b pos ep = .ok b2 := by
      simpa only [setVal, asObj] using hO
    exact setFields_absent hat 0 b pos ep b2 hok hlkn hO' (by omega) j hj1 hj2

/-- Witness for C9: over `[7, 9]`, a one-element `setArray` with source
element `{a: 3}` zeroes the missing field `g` (result `[3, 0]`),
while `setObject` with the same source keeps `g`'s byte
(result `[3, 9]`). -/
theorem c9_witness :
    getPrimAt .u8 false [3, 0] (0 + 1) = 0
      ∧ ∀ j, 0 + 1 ≤ j → j < 0 + 1 + 1 →
        ([3, 9] : Buffer)[j]? = ([7, 9] : Buffer)[j]? :=
  c9_setArray_zeroes_missing_fields c9Sub "g" 1 1 .u8 false 2 1
    [("a", Value.num 3)] [7, 9] [3, 0] [3, 9] 0 (by rfl)
    (FieldAt.tail "a" 0 1 (.prim .u8 false)
      (FieldAt.head "g" 1 1 (.prim .u8 false) .nil) (by decide))
    (by rfl) (by rfl) (by decide) (by rfl) (by rfl) (by decide)

/-! ## Claim C10: `from(object, view)` does not zero-fill -/
/-- **C10.**  `ObjectView.from(object, view)` with a caller-supplied view
runs `setObject` directly over the existing bytes with no zero-fill: the
buffer keeps its length, and any schema field absent from the source
object retains the view's prior bytes at its window. -/
theorem c10_from_into_view_preserves_bytes
    (fs : RFields) (b : Buffer) (pairs : List (String × Value)) (b' : Buffer)
    (gname : String) (gs gl : Nat) (gd : RDesc)
    (hok : fieldsOk fs = true)
    (hat : FieldAt fs gname gs gl gd)
    (hlkn : lookupVal pairs gname = none)
    (hset : fromValueInto fs b pairs = .ok b')
    (hb : sumLen fs ≤ b.length) :
    b'.length = b.length
      ∧ ∀ j, gs ≤ j → j < gs + gl → b'[j]? = b[j]? := by
  unfold fieldsOk at hok
  unfold fromValueInto at hset
  refine ⟨(setFields_frame fs 0 b 0 pairs b' hok hset (by omega)).1, ?_⟩
  intro j hj1 hj2
  exact setFields_absent hat 0 b 0 pairs b' hok hlkn hset (by omega) j
    (by omega) (by omega)

/-- Witness for C10: `from({a: 9}, view)` over the dirty bytes
`[5, 6]` yields `[9, 6]` — the absent field `c` keeps the stale `6`. -/
theorem c10_witness :
    ([9, 6] : Buffer).length = ([5, 6] : Buffer).length
      ∧ ∀ j, 1 ≤ j → j < 1 + 1 →
        ([9, 6] : Buffer)[j]? = ([5, 6] : Buffer)[j]? :=
  c10_from_into_view_preserves_bytes c10Fields [5, 6] [("a", Value.num 9)]
    [9, 6] "c" 1 1 (.prim .u8 false) (by rfl)
    (FieldAt.tail "a" 0 1 (.prim .u8 false)
      (FieldAt.head "c" 1 1 (.prim .u8 false) .nil) (by decide))
    (by rfl) (by rfl) (by decide)

/-! ## Claim C8: arrays copy `min(size, length)` elements at a fixed stride -/
theorem all_take {p : Value → Bool} {vs : List Value}
    (h : vs.all p = true) (n : Nat) : (vs.take n).all p = true := by
  rw [List.all_eq_true] at h ⊢
  intro x hx
  exact h x (List.mem_of_mem_take hx)

theorem readPrims_add (k : PrimKind) (le : Bool) (b : Buffer) :
    ∀ (m n p : Nat),
      readPrims k le b p (m + n)
        = readPrims k le b p m
          ++ readPrims k le b (p + m * kindWidth k) n := by
  intro m
  induction m with
  | zero =>
    intro n p
    simp [readPrims]
  | succ m0 ih =>
    intro n p
    have h1 : m0 + 1 + n = (m0 + n) + 1 := by omega
    have h2 : p + kindWidth k + m0 * kindWidth k
        = p + (m0 + 1) * kindWidth k := by ring
    rw [h1]
    simp only [readPrims]
    rw [ih n (p + kindWidth k), h2]
    rfl

/-- **C8.**  Array fields have byte length `size * stride` (the stride
being the element width), and setting one copies exactly
`min(size, source.length)` elements at that stride.  For a typed array
over a fresh zero buffer, reading back yields the copied prefix followed
by zeros for the remaining slots; for an array of structs, the bytes of
the slots beyond the copied ones are left untouched. -/
theorem c8_arrays_min_copy
    (k : PrimKind) (le : Bool) (size : Nat) (vs : List Value)
    (sub : RFields) (olen asize : Nat) (b : Buffer) (pos : Nat)
    (ws : List Value) (b2 : Buffer)
    (hall : vs.all (numOk k) = true)
    (hsub : fieldsOkFrom sub 0 = true) (holen : olen = sumLen sub)
    (hset2 : setVal (.arrD sub olen asize) b pos (.arr ws) = .ok b2)
    (hb2 : pos + asize * olen ≤ b.length) :
    descLen (.tarr k le size) = size * kindWidth k
      ∧ descLen (.arrD sub olen asize) = asize * olen
      ∧ (∃ b1, setVal (.tarr k le size)
            (List.replicate (size * kindWidth k) 0) 0 (.arr vs) = .ok b1
          ∧ getVal (.tarr k le size) b1 0
            = .arr (vs.take size
                ++ List.replicate (size - vs.length) (primValue k 0)))
      ∧ b2.length = b.length
      ∧ (∀ j, pos + min asize ws.length * olen ≤ j → j < pos + asize * olen →
          b2[j]? = b[j]?) := by
  subst holen
  have hset2' : writeSlots (fun bb p el => setFieldsU sub bb p (asObj el))
      (sumLen sub) b pos (ws.take asize) = .ok b2 := by
    simpa only [setVal, asArr] using hset2
  have hw : ∀ (bb : Buffer) (p : Nat) (v : Value) (bb2 : Buffer),
      setFieldsU sub bb p (asObj v) = .ok bb2 →
      p + sumLen sub ≤ bb.length →
      bb2.length = bb.length
        ∧ ∀ j, (j < p ∨ p + sumLen sub ≤ j) → bb2[j]? = bb[j]? := by
    intro bb p v bb2 hwr hbb
    obtain ⟨h1, h2⟩ := setFieldsU_frame sub 0 bb p (asObj v) bb2 hsub hwr
      (by omega)
    exact ⟨h1, fun j hj => h2 j (by omega)⟩
  have htk : (ws.take asize).length = min asize ws.length := by
    simp [List.length_take]
  have hlen2 : pos + (ws.take asize).length * sumLen sub ≤ b.length := by
    have hle : (ws.take asize).length ≤ asize := by omega
    have := Nat.mul_le_mul_right (sumLen sub) hle
    omega
  obtain ⟨hfr1, hfr2⟩ := writeSlots_frame
    (fun bb p el => setFieldsU sub bb p (asObj el)) (sumLen sub) hw
    (ws.take asize) b pos b2 hset2' hlen2
  refine ⟨rfl, rfl, ?_, hfr1, ?_⟩
  · have halltk : (vs.take size).all (numOk k) = true := all_take hall size
    have htl : (vs.take size).length = min size vs.length := by
      simp [List.length_take]
    have htls : (vs.take size).length ≤ size := by omega
    have hbnd : 0 + (vs.take size).length * kindWidth k
        ≤ (List.replicate (size * kindWidth k) (0 : Nat)).length := by
      rw [List.length_replicate]
      have := Nat.mul_le_mul_right (kindWidth k) htls
      omega
    obtain ⟨b1, hw1, hl1, hf1, hr1⟩ := writePrims_ok k le (vs.take size)
      (List.replicate (size * kindWidth k) 0) 0 halltk hbnd
    refine ⟨b1, by simpa only [setVal, asArr] using hw1, ?_⟩
    simp only [getVal]
    have h1 : readPrims k le b1 0 size
        = readPrims k le b1 0 (vs.take size).length
          ++ readPrims k le b1 (0 + (vs.take size).length * kindWidth k)
            (size - (vs.take size).length) := by
      rw [← readPrims_add]
      congr 1
      omega
    have hmulsum : (vs.take size).length * kindWidth k
        + (size - (vs.take size).length) * kindWidth k
        = size * kindWidth k := by
      rw [← Nat.add_mul]
      congr 1
      omega
    have hag : agreeOn b1 (List.replicate (size * kindWidth k) 0)
        ((vs.take size).length * kindWidth k)
        ((size - (vs.take size).length) * kindWidth k) := by
      intro j hj
      exact hf1 ((vs.take size).length * kindWidth k + j) (Or.inr (by omega))
    have hzb : readBytes b1 ((vs.take size).length * kindWidth k)
        ((size - (vs.take size).length) * kindWidth k)
        = List.replicate ((size - (vs.take size).length) * kindWidth k) 0 := by
      rw [readBytes_eq_of_agreeOn hag]
      apply readBytes_replicate
      omega
    have hzeros : readPrims k le b1 ((vs.take size).length * kindWidth k)
        (size - (vs.take size).length)
        = List.replicate (size - (vs.take size).length) (primValue k 0) := by
      refine readPrims_zeros k le _ b1 _ hzb ?_
      rw [hl1, List.length_replicate]
      omega
    rw [h1, Nat.zero_add, hr1, hzeros]
    have hcount : size - (vs.take size).length = size - vs.length := by omega
    rw [hcount]
  · intro j hj1 hj2
    refine hfr2 j (Or.inr ?_)
    rw [htk]
    exact hj1

/-- Witness for C8: a 3-slot `uint8` array filled from a 2-element source
reads back `[1, 2, 0]`; a 3-slot struct array filled from one element
leaves the bytes of slots 1 and 2 untouched (`[9, 9, 9]` becomes
`[5, 9, 9]`). -/
theorem c8_witness :
    descLen (.tarr .u8 false 3) = 3 * kindWidth .u8
      ∧ descLen (.arrD c8Sub 1 3) = 3 * 1
      ∧ (∃ b1, setVal (.tarr .u8 false 3)
            (List.replicate (3 * kindWidth .u8) 0) 0
            (.arr [Value.num 1, Value.num 2]) = .ok b1
          ∧ getVal (.tarr .u8 false 3) b1 0
            = .arr ([Value.num 1, Value.num 2].take 3
                ++ List.replicate (3 - [Value.num 1, Value.num 2].length)
                  (primValue .u8 0)))
      ∧ ([5, 9, 9] : Buffer).length = ([9, 9, 9] : Buffer).length
      ∧ (∀ j, 0 + min 3 [Value.obj [("m", Value.num 5)]].length * 1 ≤ j →
          j < 0 + 3 * 1 →
          ([5, 9, 9] : Buffer)[j]? = ([9, 9, 9] : Buffer)[j]?) :=
  c8_arrays_min_copy .u8 false 3 [Value.num 1, Value.num 2] c8Sub 1 3
    [9, 9, 9] 0 [Value.obj [("m", Value.num 5)]] [5, 9, 9]
    (by rfl) (by rfl) (by rfl) (by rfl) (by decide)

end Structurae
